import Mathlib

/-!
# voxelcopter: a verification development

A shallow embedding of `voxelcopter.cpp` (a voxel-space terrain renderer with a
small flight model) and theorems about it.

Conventions of the embedding:

* `float`/`double` arithmetic is modelled twice.  The sampler's indexing, the
  horizon bookkeeping of the column step and the flight model are stated over
  exact arithmetic in `ℚ`.  The renderer is modelled a second time in the
  namespace `F32`, with every `float` operation rounded to IEEE 754 binary32
  (`rnd`: to nearest, ties to even, gradual underflow, no fused
  multiply-add); the properties that depend on rounding are proved there.
  The library calls `sinf`, `cosf` and the constant `M_PI` are parameters
  (`Trig`).
* `int` values are `Int`; the only `int` addition of the program that can leave
  the 32 bit range (`intPos + 1` in `getPoint`) is wrapped explicitly with
  `wrapInt`.  C++ `%` is `Int.tmod` (truncating).
* The conversion `(int)f` of a floating value is truncation toward zero
  (`toInt`).
* `vector<Point> landscape` is a `List`; an index outside the list makes the
  lookup, and everything that depends on it, return `none`.
* Global variables become explicit arguments and results; `vector<int> hiddenY`
  is the function from a column to its horizon.
* The frame buffer `pixBuf` is the log of the stores made into it, most recent
  first; the content of a cell is the most recent store to its index.
-/

namespace Voxelcopter

/-! ## Constants -/

namespace window
/-- The constant `window::width`. -/
def width : Nat := 1920
/-- The constant `window::height`. -/
def height : Nat := 1080
end window

/-- The constant `mapWidth`. -/
def mapWidth : Int := 1024

/-- The constant `painterThreadQuantity`. -/
def painterThreadQuantity : Nat := 4

namespace camera
/-- The constant `camera::straightView`, `window::height / 2.0f`. -/
def straightView : ℚ := (window.height : ℚ) / 2
/-- The constant `camera::minHorizon`. -/
def minHorizon : ℚ := -straightView
/-- The constant `camera::maxHorizon`. -/
def maxHorizon : ℚ := 3 * straightView
/-- The constant `camera::deltaFactor`, the literal `0.000001f`. -/
def deltaFactor : ℚ := 1 / 1000000
/-- The constant `camera::heightScaleFactor`. -/
def heightScaleFactor : ℚ := 50000
end camera

/-- The constant `skyColorShades`. -/
def skyColorShades : Int := 200

/-! ## Vectors of four floats -/

/-- The GCC vector type `__v4sf`: four lanes, arithmetic lane by lane.  `Point`
(three colour channels and a height) is read through the same four lanes by the
union `PointVector`. -/
structure V4sf where
  e0 : ℚ
  e1 : ℚ
  e2 : ℚ
  e3 : ℚ
deriving DecidableEq, Repr

namespace V4sf

/-- Lane-wise sum. -/
def add (a b : V4sf) : V4sf := ⟨a.e0 + b.e0, a.e1 + b.e1, a.e2 + b.e2, a.e3 + b.e3⟩

/-- Lane-wise product. -/
def mul (a b : V4sf) : V4sf := ⟨a.e0 * b.e0, a.e1 * b.e1, a.e2 * b.e2, a.e3 * b.e3⟩

/-- Product of a vector with a scalar (the scalar is broadcast to all lanes). -/
def scale (a : V4sf) (s : ℚ) : V4sf := ⟨a.e0 * s, a.e1 * s, a.e2 * s, a.e3 * s⟩

/-- The scalar `s` minus the vector, lane by lane (the scalar is broadcast). -/
def rsub (s : ℚ) (a : V4sf) : V4sf := ⟨s - a.e0, s - a.e1, s - a.e2, s - a.e3⟩

/-- The vector with every lane zero, `{ 0 }`. -/
def zero : V4sf := ⟨0, 0, 0, 0⟩

end V4sf

/-- The type `struct Point { float color[3]; float height; }` seen through
`PointVector`: lanes 0 to 2 are the colour, lane 3 the height. -/
abbrev Point := V4sf

/-- The field `Point::height`. -/
def Point.height (p : Point) : ℚ := p.e3

/-! ## Integer conversions -/

/-- The conversion `(int)f`: truncation toward zero. -/
def toInt (q : ℚ) : Int := if 0 ≤ q then Int.floor q else Int.ceil q

/-- A 32 bit two's complement `int` result. -/
def wrapInt (n : Int) : Int := (n + 2147483648) % 4294967296 - 2147483648

/-! ## The sampler -/

/-- The lambda `getMapOffset` of `getPoint`, with the truncating `%` of C++. -/
def getMapOffset (x y : Int) : Int :=
  ((y.tmod mapWidth + mapWidth).tmod mapWidth) * mapWidth +
    (x.tmod mapWidth + mapWidth).tmod mapWidth

/-- Element access `landscape[i]`; `none` when `i` is not an index of the
vector. -/
def lookup (landscape : List Point) (i : Int) : Option Point :=
  if i < 0 then none else landscape[i.toNat]?

/-- The bilinear blend at the end of `getPoint`. -/
def blend (p1 p2 p3 p4 : Point) (fract0 fract1 negFract0 negFract1 : ℚ) : Point :=
  V4sf.add
    (V4sf.add
      (V4sf.add ((p4.scale fract0).scale fract1) ((p3.scale negFract0).scale fract1))
      ((p2.scale fract0).scale negFract1))
    ((p1.scale negFract0).scale negFract1)

/-- The function `getPoint(p, pos)`: the bilinear sample of the landscape at `(pos0, pos1)`. -/
def getPoint (landscape : List Point) (pos0 pos1 : ℚ) : Option Point :=
  let intPos0 : Int := toInt (Int.floor pos0 : ℚ)
  let intPos1 : Int := toInt (Int.floor pos1 : ℚ)
  let nextIntPos0 : Int := wrapInt (intPos0 + 1)
  let nextIntPos1 : Int := wrapInt (intPos1 + 1)
  let fract0 : ℚ := pos0 - intPos0
  let fract1 : ℚ := pos1 - intPos1
  let negFract0 : ℚ := 1 - fract0
  let negFract1 : ℚ := 1 - fract1
  match lookup landscape (getMapOffset intPos0 intPos1),
        lookup landscape (getMapOffset nextIntPos0 intPos1),
        lookup landscape (getMapOffset intPos0 nextIntPos1),
        lookup landscape (getMapOffset nextIntPos0 nextIntPos1) with
  | some p1, some p2, some p3, some p4 =>
      some (blend p1 p2 p3 p4 fract0 fract1 negFract0 negFract1)
  | _, _, _, _ => none

/-- The four offsets `getPoint` computes for the position `(pos0, pos1)`, in
the order `p1`, `p2`, `p3`, `p4`. -/
def getPointOffsets (pos0 pos1 : ℚ) : List Int :=
  let intPos0 : Int := toInt (Int.floor pos0 : ℚ)
  let intPos1 : Int := toInt (Int.floor pos1 : ℚ)
  let nextIntPos0 : Int := wrapInt (intPos0 + 1)
  let nextIntPos1 : Int := wrapInt (intPos1 + 1)
  [getMapOffset intPos0 intPos1, getMapOffset nextIntPos0 intPos1,
   getMapOffset intPos0 nextIntPos1, getMapOffset nextIntPos0 nextIntPos1]

/-! ## Pixels and the frame buffer -/

/-- The type `union Pixel { Uint32 uint; Uint8 color[4]; }`, by its four bytes. -/
structure Pixel where
  c0 : Nat
  c1 : Nat
  c2 : Nat
  c3 : Nat
deriving DecidableEq, Repr

/-- The conversion `(Uint8)f`. -/
def toUint8 (q : ℚ) : Nat := (toInt q % 256).toNat

/-- The frame buffer `pixBuf`, as the log of the stores `pixBuf[idx] = v`, the
most recent store first. -/
abbrev PixBuf := List (Int × Pixel)

/-- The store `pixBuf[idx] = v`. -/
def PixBuf.store (buf : PixBuf) (idx : Int) (v : Pixel) : PixBuf := (idx, v) :: buf

/-- The content of `pixBuf[idx]`: the most recent store to `idx`, `none` when
nothing was stored there. -/
def PixBuf.read (buf : PixBuf) (idx : Int) : Option Pixel :=
  match buf with
  | [] => none
  | (j, v) :: rest => if j = idx then some v else PixBuf.read rest idx

/-- The sky colour number `i` computed by `initSkyColors`. -/
def skyColor (i : Nat) : Pixel :=
  let fadingRatio : ℚ := (i : ℚ) / (skyColorShades : ℚ)
  { c0 := toUint8 (232 - 52 * fadingRatio)
    c1 := toUint8 (214 - 96 * fadingRatio)
    c2 := toUint8 (181 - 123 * fadingRatio)
    c3 := 0 }

/-- The table `skyColors` after `initSkyColors`. -/
def skyColors : List Pixel := (List.range skyColorShades.toNat).map skyColor

/-- The pixel `drawLine` stores for the point `p`. -/
def pixCol (p : Point) : Pixel :=
  { c0 := toUint8 p.e2, c1 := toUint8 p.e1, c2 := toUint8 p.e0, c3 := 0 }

/-- The loop of `drawLine`: `n` iterations left, loop variable `i`. -/
def drawLineLoop (surfaceW : Int) (col : Pixel) (x : Int) : Nat → Int → PixBuf → PixBuf
  | 0, _, buf => buf
  | n + 1, i, buf => drawLineLoop surfaceW col x n (i + 1) (buf.store (x + i * surfaceW) col)

/-- The function `drawLine(p, x, fromY, toY)`; `surfaceW` is `windowSurface->w`. -/
def drawLine (surfaceW : Int) (buf : PixBuf) (p : Point) (x fromY toY : Int) : PixBuf :=
  drawLineLoop surfaceW (pixCol p) x (toY - fromY).toNat fromY buf

/-! ## Rendering state -/

/-- The variables of `namespace geo`. -/
structure Geo where
  maxH : Int
  pl0 : ℚ
  pl1 : ℚ
  d0 : ℚ
  d1 : ℚ
  invZ : ℚ
deriving DecidableEq, Repr

/-- The globals a painter reads during one slice: `geo`, `drawingPosition` and
`camera::horizon`. -/
structure SliceEnv where
  geo : Geo
  drawingPosition : V4sf
  horizon : ℚ
deriving DecidableEq, Repr

/-- The globals the painters write: the horizon `hiddenY` of every column and
the frame buffer. -/
structure Frame where
  hiddenY : Nat → Int
  pixBuf : PixBuf

/-- The function `calcGeo(sinusAngle, cosinusAngle, z)`. -/
def calcGeo (sinusAngle cosinusAngle z : ℚ) (drawingPosition : V4sf) (horizon : ℚ) : Geo :=
  let cosinusAngleZ : ℚ := cosinusAngle * z
  let sinusAngleZ : ℚ := sinusAngle * z
  let pl0 : ℚ := -cosinusAngleZ - sinusAngleZ
  let pl1 : ℚ := sinusAngleZ - cosinusAngleZ
  let d0 : ℚ := (cosinusAngleZ - sinusAngleZ - pl0) / (window.width : ℚ)
  let d1 : ℚ := (-sinusAngleZ - cosinusAngleZ - pl1) / (window.width : ℚ)
  let invZ : ℚ := camera.heightScaleFactor / z
  { maxH := toInt ((drawingPosition.e2 - 1) * invZ + horizon)
    pl0 := pl0 + drawingPosition.e0
    pl1 := pl1 + drawingPosition.e1
    d0 := d0
    d1 := d1
    invZ := invZ }

/-- The projected row `heightOnScreen` of the sample `p`. -/
def heightOnScreen (env : SliceEnv) (p : Point) : Int :=
  toInt ((env.drawingPosition.e2 - p.height) * env.geo.invZ + env.horizon)

/-- The body of the column loop of `drawPartialRow` for the column `i`. -/
def columnStep (landscape : List Point) (surfaceW : Int) (env : SliceEnv) (st : Frame)
    (i : Nat) : Option Frame :=
  if env.geo.maxH ≥ st.hiddenY i then some st
  else
    match getPoint landscape (env.geo.pl0 + env.geo.d0 * (i : ℚ))
        (env.geo.pl1 + env.geo.d1 * (i : ℚ)) with
    | none => none
    | some p =>
      if heightOnScreen env p < st.hiddenY i then
        some { hiddenY := Function.update st.hiddenY i (heightOnScreen env p)
               pixBuf := drawLine surfaceW st.pixBuf p (i : Int)
                 (if heightOnScreen env p < 0 then 0 else heightOnScreen env p) (st.hiddenY i) }
      else some st

/-- The column loop of `drawPartialRow`: `n` columns left, the next one is
`i`. -/
def columnLoop (landscape : List Point) (surfaceW : Int) (env : SliceEnv) :
    Nat → Nat → Frame → Option Frame
  | 0, _, st => some st
  | n + 1, i, st =>
    match columnStep landscape surfaceW env st i with
    | none => none
    | some st1 => columnLoop landscape surfaceW env n (i + 1) st1

/-- One pass of the loop body of `drawPartialRow(fromX, toX)` between the two
barriers. -/
def drawPartialRow (landscape : List Point) (surfaceW : Int) (env : SliceEnv)
    (fromX toX : Nat) (st : Frame) : Option Frame :=
  columnLoop landscape surfaceW env (toX - fromX) fromX st

/-- The column range of painter `k`, as `main` hands it out:
`yPerThread = window::width / painterThreadQuantity`. -/
def painterRange (k : Nat) : Nat × Nat :=
  let yPerThread : Nat := window.width / painterThreadQuantity
  (k * yPerThread, (k + 1) * yPerThread)

/-- The work of the painters `k`, `k + 1`, ... (`n` of them) for one slice.
They own disjoint column ranges, so the painters are run one after the
other. -/
def paintersLoop (landscape : List Point) (surfaceW : Int) (env : SliceEnv) :
    Nat → Nat → Frame → Option Frame
  | 0, _, st => some st
  | n + 1, k, st =>
    match drawPartialRow landscape surfaceW env (painterRange k).1 (painterRange k).2 st with
    | none => none
    | some st1 => paintersLoop landscape surfaceW env n (k + 1) st1

/-- What happens between `barrierA.wait()` and `barrierB.wait()` of one slice:
all painters do their columns. -/
def paintSlice (landscape : List Point) (surfaceW : Int) (env : SliceEnv) (st : Frame) :
    Option Frame :=
  paintersLoop landscape surfaceW env painterThreadQuantity 0 st

/-- The column step of one column through a sequence of slices; the result is
the list of the frames before the first slice and after each slice. -/
def columnTrace (landscape : List Point) (surfaceW : Int) (i : Nat) :
    List SliceEnv → Frame → Option (List Frame)
  | [], st => some [st]
  | env :: envs, st =>
    match columnStep landscape surfaceW env st i with
    | none => none
    | some st1 =>
      match columnTrace landscape surfaceW i envs st1 with
      | none => none
      | some tr => some (st :: tr)

/-! ## The sky -/

/-- The clamped palette index `overHorizon` of `paintBlueSky` for the row
`y`. -/
def overHorizon (horizon : ℚ) (y : Int) : Int :=
  let overHorizon : Int := toInt horizon - y
  if overHorizon ≥ skyColorShades then skyColorShades - 1
  else if overHorizon < 0 then 0
  else overHorizon

/-- The inner loop of `paintBlueSky` for the column `x`: `n` rows left, the
next one is `y`. -/
def paintSkyColumn (surfaceW : Int) (horizon : ℚ) (x : Int) : Nat → Int → PixBuf → PixBuf
  | 0, _, buf => buf
  | n + 1, y, buf =>
    paintSkyColumn surfaceW horizon x n (y + 1)
      (buf.store (x + y * surfaceW) (skyColors.getD (overHorizon horizon y).toNat ⟨0, 0, 0, 0⟩))

/-- The outer loop of `paintBlueSky`: `n` columns left, the next one is `x`. -/
def paintSkyLoop (surfaceW : Int) (horizon : ℚ) (hiddenY : Nat → Int) :
    Nat → Nat → PixBuf → PixBuf
  | 0, _, buf => buf
  | n + 1, x, buf =>
    paintSkyLoop surfaceW horizon hiddenY n (x + 1)
      (paintSkyColumn surfaceW horizon (x : Int) (hiddenY x).toNat 0 buf)

/-- The function `paintBlueSky()`. -/
def paintBlueSky (surfaceW : Int) (horizon : ℚ) (st : Frame) : Frame :=
  { hiddenY := st.hiddenY
    pixBuf := paintSkyLoop surfaceW horizon st.hiddenY window.width 0 st.pixBuf }

/-! ## The frame -/

/-- The library functions `sinf` and `cosf` and the constant `M_PI`. -/
structure Trig where
  sinf : ℚ → ℚ
  cosf : ℚ → ℚ
  pi : ℚ

/-- The reset at the start of `render`: every `hiddenY` is `window::height`;
the log of the frame's stores starts empty. -/
def resetFrame : Frame := { hiddenY := fun _ => (window.height : Int), pixBuf := [] }
/-! ## The flight model -/

/-- The constant `gravity`. -/
def gravity : V4sf := ⟨0, 0, -(1 / 100000), 0⟩

namespace engine
/-- The constant `engine::maxPower`, the literal `0.0000102`. -/
def maxPower : ℚ := 102 / 10000000
/-- The constant `engine::minPower`. -/
def minPower : ℚ := maxPower * (9 / 10)
/-- The constant `engine::deltaPower`, the literal `0.0000000001`. -/
def deltaPower : ℚ := 1 / 10000000000
end engine

/-- The entries of `keyStates` that `physicsThread` reads. -/
structure Keys where
  w : Bool
  s : Bool
  escape : Bool
  a : Bool
  d : Bool
deriving DecidableEq, Repr

/-- The globals `physicsThread` writes. -/
structure Flight where
  power : ℚ
  runApp : Bool
  speed : V4sf
  position : V4sf
deriving DecidableEq, Repr

/-- The update of `engine::power` at the start of the loop body of
`physicsThread`: the keys `w` and `s`, with the clamps. -/
def enginePower (keys : Keys) (power0 : ℚ) : ℚ :=
  let power1 : ℚ :=
    if keys.w then
      (if power0 + engine.deltaPower > engine.maxPower then engine.maxPower
       else power0 + engine.deltaPower)
    else power0
  if keys.s then
    (if power1 - engine.deltaPower < engine.minPower then engine.minPower
     else power1 - engine.deltaPower)
  else power1

/-- The vector `sidePitch` of the loop body of `physicsThread`: the keys `a` and
`d`. -/
def sidePitch (trig : Trig) (keys : Keys) (angle power : ℚ) : V4sf :=
  let sidePitch0 : V4sf := V4sf.zero
  let sidePitch1 : V4sf :=
    if keys.a then
      { sidePitch0 with
        e0 := sidePitch0.e0 - trig.sinf (angle + trig.pi / 2) * power
        e1 := sidePitch0.e1 - trig.cosf (angle + trig.pi / 2) * power }
    else sidePitch0
  if keys.d then
    { sidePitch1 with
      e0 := sidePitch1.e0 - trig.sinf (angle - trig.pi / 2) * power
      e1 := sidePitch1.e1 - trig.cosf (angle - trig.pi / 2) * power }
  else sidePitch1

/-- The vector `rotorAcceleration` of the loop body of `physicsThread`, with
`frontPitch`. -/
def rotorAcceleration (trig : Trig) (angle horizon power : ℚ) : V4sf :=
  let frontPitch : ℚ :=
    trig.pi * (horizon + camera.straightView * 9) / (camera.straightView * 20)
  ⟨-trig.sinf angle * power * trig.cosf frontPitch * 10,
   -trig.cosf angle * power * trig.cosf frontPitch * 10,
   trig.sinf frontPitch * power,
   0⟩

/-- The speed after air resistance and acceleration: `speed *= 1.0f - (speed *
speed * 4.0f); speed += rotorAcceleration + gravity + sidePitch;`. -/
def acceleratedSpeed (speed rotor side : V4sf) : V4sf :=
  (speed.mul (V4sf.rsub 1 ((speed.mul speed).scale 4))).add ((rotor.add gravity).add side)

/-- One iteration of the loop of `physicsThread`, without the sleep.  `angle`
and `horizon` are `camera::angle` and `camera::horizon`. -/
def physicsTick (trig : Trig) (landscape : List Point) (keys : Keys) (angle horizon : ℚ)
    (st : Flight) : Option Flight :=
  let power : ℚ := enginePower keys st.power
  let runApp : Bool := if keys.escape then false else st.runApp
  let speed2 : V4sf := acceleratedSpeed st.speed (rotorAcceleration trig angle horizon power)
    (sidePitch trig keys angle power)
  if st.position.e2 > 2 ∧ speed2.e2 > 0 then
    let speed3 : V4sf := { speed2 with e2 := speed2.e2 * ((5002 - st.position.e2) / 5000) }
    some { power := power, runApp := runApp, speed := speed3,
           position := st.position.add speed3 }
  else if st.position.e2 < 1 then
    match getPoint landscape st.position.e0 st.position.e1 with
    | none => none
    | some pv =>
      if st.position.e2 ≤ pv.height + 11 / 1000 then
        let position1 : V4sf := { st.position with e2 := pv.height + 111 / 10000 }
        let speed3 : V4sf := { speed2 with e0 := 0, e1 := 0, e2 := 0 }
        some { power := power, runApp := runApp, speed := speed3,
               position := position1.add speed3 }
      else
        some { power := power, runApp := runApp, speed := speed2,
               position := st.position.add speed2 }
  else
    some { power := power, runApp := runApp, speed := speed2,
           position := st.position.add speed2 }

/-- The keys all released. -/
def noKeys : Keys := ⟨false, false, false, false, false⟩

/-! ## Test heightfields -/

/-- The heightfield of `mapWidth * mapWidth` cells whose every cell is `p`. -/
def flatLandscape (p : Point) : List Point := List.replicate 1048576 p

/-! ## Predicates on frames -/

/-- The stores of one slice in column `i`, between the frame `a` before the
slice and the frame `b` after it: the log grows by stores `new` whose rows are
exactly the rows from `max 0 (b.hiddenY i)` up to, not including, the old
horizon `a.hiddenY i`, and none of them goes to a cell that was stored to
before. -/
def SliceWrites (surfaceW : Int) (i : Nat) (a b : Frame) : Prop :=
  ∃ new : PixBuf, b.pixBuf = new ++ a.pixBuf ∧
    (∀ e ∈ new, ∃ y : Int, max 0 (b.hiddenY i) ≤ y ∧ y < a.hiddenY i ∧
      e.1 = (i : Int) + y * surfaceW) ∧
    (∀ y : Int, max 0 (b.hiddenY i) ≤ y → y < a.hiddenY i →
      ∃ e ∈ new, e.1 = (i : Int) + y * surfaceW) ∧
    (∀ e ∈ new, ∀ e1 ∈ a.pixBuf, e.1 ≠ e1.1)

/-- No cell was stored to twice. -/
def WrittenOnce (st : Frame) : Prop := (st.pixBuf.map Prod.fst).Nodup

/-- Every store of the log went to a row of column `i` at or below the horizon
of the column, and no cell was stored to twice. -/
def ColumnInv (surfaceW : Int) (i : Nat) (st : Frame) : Prop :=
  WrittenOnce st ∧
    ∀ e ∈ st.pixBuf, ∃ y : Int, 0 ≤ y ∧ st.hiddenY i ≤ y ∧ e.1 = (i : Int) + y * surfaceW

/-! ## Test inputs -/

/-- Rational stand-ins for `sinf`, `cosf` and `M_PI` on test inputs: the Taylor
polynomials of degree 5 and 4, and `355 / 113`. -/
def testTrig : Trig :=
  { sinf := fun x => x - x ^ 3 / 6 + x ^ 5 / 120
    cosf := fun x => 1 - x ^ 2 / 2 + x ^ 4 / 24
    pi := 355 / 113 }

/-- A helicopter at rest on the flat heightfield of height `1 / 2`, its altitude
equal to the terrain height, at full power. -/
def restingFlight : Flight :=
  { power := engine.maxPower, runApp := true, speed := V4sf.zero,
    position := ⟨0, 0, 1 / 2, 0⟩ }

/-- A helicopter sinking at `1 / 1000` per tick, `5 / 1000` above the flat
heightfield of height `1 / 2`. -/
def sinkingFlight : Flight :=
  { power := engine.maxPower, runApp := true, speed := ⟨0, 0, -(1 / 1000), 0⟩,
    position := ⟨0, 0, 1 / 2 + 5 / 1000, 0⟩ }

/-- A helicopter at rest at altitude `1` on the flat heightfield of height `1`,
at the lowest power. -/
def summitFlight : Flight :=
  { power := engine.minPower, runApp := true, speed := V4sf.zero,
    position := ⟨0, 0, 1, 0⟩ }

/-! ## Trajectories -/

/-- The function `physicsThread()`: one tick for each entry of the list (the keys,
`camera::angle` and `camera::horizon` the tick sees) while `runApp` holds.  The
result is the list of the states before each tick and after the last. -/
def physicsThread (trig : Trig) (landscape : List Point) :
    List (Keys × ℚ × ℚ) → Flight → Option (List Flight)
  | [], st => some [st]
  | (keys, angle, horizon) :: rest, st =>
    if st.runApp then
      match physicsTick trig landscape keys angle horizon st with
      | none => none
      | some st1 =>
        match physicsThread trig landscape rest st1 with
        | none => none
        | some tr => some (st :: tr)
    else some [st]

/-- The landing snap between the state `a` at the start of a tick and the state
`b` at its end: when `a` is below altitude `1` and at or below the terrain
height under it plus `0.011`, then `b` has speed zero in all three components,
altitude the terrain height plus `0.0111` (above the terrain) and the
horizontal position of `a`. -/
def LandingSnap (landscape : List Point) (a b : Flight) : Prop :=
  ∀ pv : Point, getPoint landscape a.position.e0 a.position.e1 = some pv →
    a.position.e2 < 1 → a.position.e2 ≤ pv.height + 11 / 1000 →
    b.speed.e0 = 0 ∧ b.speed.e1 = 0 ∧ b.speed.e2 = 0 ∧
    b.position.e0 = a.position.e0 ∧ b.position.e1 = a.position.e1 ∧
    b.position.e2 = pv.height + 111 / 10000 ∧ pv.height < b.position.e2
/-! ## The spin barrier

The orchestrator (`render`) and the painters (`drawPartialRow`) all call
`barrierA.wait()` and `barrierB.wait()` in turn, for ever.  The counters are
`atomic<int>`, so an execution is an interleaving of the atomic operations of
the participants: `++spinning`, `++prisoners`, one evaluation of the loop
condition, `--spinning == 0`, and `prisoners = 0`.  `runApp` is `true`
throughout. -/

/-- The number of participants of a barrier, `painterThreadQuantity + 1`. -/
def participants : Nat := painterThreadQuantity + 1

/-- The next atomic operation of a participant inside `wait()`. -/
inductive Stage where
  /-- About to do `++spinning`. -/
  | incSpinning
  /-- About to do `++prisoners`. -/
  | incPrisoners
  /-- About to evaluate `prisoners < painterThreadQuantity + 1 && runApp`. -/
  | spin
  /-- About to do `--spinning == 0`. -/
  | decSpinning
  /-- About to do `prisoners = 0`. -/
  | reset
deriving DecidableEq, Repr

/-- Where a participant is: the number of calls of `wait()` it has returned
from, and the next operation of its current call.  Call number `k` (from `0`)
is on `barrierA` when `k` is even and on `barrierB` when `k` is odd. -/
structure Loc where
  waits : Nat
  stage : Stage
deriving DecidableEq, Repr

/-- The counters of a `SpinlockBarrier`. -/
structure SpinlockBarrier where
  prisoners : Int
  spinning : Int
deriving DecidableEq, Repr

/-- The two barriers and the location of every participant (participant
numbers are `0`, ..., `participants - 1`). -/
structure World where
  pc : Nat → Loc
  barrierA : SpinlockBarrier
  barrierB : SpinlockBarrier

/-- The barrier of call number `k`. -/
def World.barrier (s : World) (k : Nat) : SpinlockBarrier :=
  if k % 2 = 0 then s.barrierA else s.barrierB

/-- The world with the barrier of call number `k` replaced by `b`. -/
def World.setBarrier (s : World) (k : Nat) (b : SpinlockBarrier) : World :=
  if k % 2 = 0 then { s with barrierA := b } else { s with barrierB := b }

/-- The world with participant `t` moved to `l`. -/
def World.setPc (s : World) (t : Nat) (l : Loc) : World :=
  { s with pc := Function.update s.pc t l }

/-- The next atomic operation of participant `t`. -/
def step (s : World) (t : Nat) : World :=
  let l : Loc := s.pc t
  let b : SpinlockBarrier := s.barrier l.waits
  match l.stage with
  | Stage.incSpinning =>
    (s.setBarrier l.waits { b with spinning := b.spinning + 1 }).setPc t
      ⟨l.waits, Stage.incPrisoners⟩
  | Stage.incPrisoners =>
    (s.setBarrier l.waits { b with prisoners := b.prisoners + 1 }).setPc t
      ⟨l.waits, Stage.spin⟩
  | Stage.spin =>
    if b.prisoners < (participants : Int) then s
    else s.setPc t ⟨l.waits, Stage.decSpinning⟩
  | Stage.decSpinning =>
    if b.spinning - 1 = 0 then
      (s.setBarrier l.waits { b with spinning := b.spinning - 1 }).setPc t
        ⟨l.waits, Stage.reset⟩
    else
      (s.setBarrier l.waits { b with spinning := b.spinning - 1 }).setPc t
        ⟨l.waits + 1, Stage.incSpinning⟩
  | Stage.reset =>
    (s.setBarrier l.waits { b with prisoners := 0 }).setPc t ⟨l.waits + 1, Stage.incSpinning⟩

/-- The start: both barriers zero, every participant about to call
`barrierA.wait()` for the first time. -/
def World.init : World :=
  { pc := fun _ => ⟨0, Stage.incSpinning⟩, barrierA := ⟨0, 0⟩, barrierB := ⟨0, 0⟩ }

/-- The world after the interleaving `sched`: the list of the participants in
the order in which they do their atomic operations. -/
def run (sched : List Nat) (s : World) : World := sched.foldl step s

/-- The participant at `l` has done `++prisoners` in its call number `k`. -/
def Loc.arrived (l : Loc) (k : Nat) : Prop :=
  k < l.waits ∨ (l.waits = k ∧
    (l.stage = Stage.spin ∨ l.stage = Stage.decSpinning ∨ l.stage = Stage.reset))

/-- The participant at `l` has left the loop of its call number `k`. -/
def Loc.released (l : Loc) (k : Nat) : Prop :=
  k < l.waits ∨ (l.waits = k ∧ (l.stage = Stage.decSpinning ∨ l.stage = Stage.reset))

/-- The number of participants below `n` that are at `loc`. -/
def countAt (pc : Nat → Loc) (loc : Loc) : Nat → Nat
  | 0 => 0
  | n + 1 => countAt pc loc n + (if pc n = loc then 1 else 0)

/-- The invariant of the two barriers, relative to the call number `m` of the
participants that are behind: every participant is in call `m` or `m + 1`, those
in call `m + 1` have not left its loop, and the four counters are the numbers of
participants at the matching places. -/
structure BarrierInv (s : World) (m : Nat) : Prop where
  near : ∀ t, t < participants → (s.pc t).waits = m ∨ (s.pc t).waits = m + 1
  total :
    countAt s.pc ⟨m, Stage.incSpinning⟩ participants
      + countAt s.pc ⟨m, Stage.incPrisoners⟩ participants
      + countAt s.pc ⟨m, Stage.spin⟩ participants
      + countAt s.pc ⟨m, Stage.decSpinning⟩ participants
      + countAt s.pc ⟨m, Stage.reset⟩ participants
      + countAt s.pc ⟨m + 1, Stage.incSpinning⟩ participants
      + countAt s.pc ⟨m + 1, Stage.incPrisoners⟩ participants
      + countAt s.pc ⟨m + 1, Stage.spin⟩ participants
      + countAt s.pc ⟨m + 1, Stage.decSpinning⟩ participants
      + countAt s.pc ⟨m + 1, Stage.reset⟩ participants = participants
  behind :
    1 ≤ countAt s.pc ⟨m, Stage.incSpinning⟩ participants
      + countAt s.pc ⟨m, Stage.incPrisoners⟩ participants
      + countAt s.pc ⟨m, Stage.spin⟩ participants
      + countAt s.pc ⟨m, Stage.decSpinning⟩ participants
      + countAt s.pc ⟨m, Stage.reset⟩ participants
  ahead :
    countAt s.pc ⟨m + 1, Stage.decSpinning⟩ participants = 0 ∧
    countAt s.pc ⟨m + 1, Stage.reset⟩ participants = 0
  spinning :
    (s.barrier m).spinning =
      countAt s.pc ⟨m, Stage.incPrisoners⟩ participants
        + countAt s.pc ⟨m, Stage.spin⟩ participants
        + countAt s.pc ⟨m, Stage.decSpinning⟩ participants
  spinningNext :
    (s.barrier (m + 1)).spinning =
      countAt s.pc ⟨m + 1, Stage.incPrisoners⟩ participants
        + countAt s.pc ⟨m + 1, Stage.spin⟩ participants
  prisonersNext :
    (s.barrier (m + 1)).prisoners = countAt s.pc ⟨m + 1, Stage.spin⟩ participants
  gathering :
    countAt s.pc ⟨m, Stage.decSpinning⟩ participants
        + countAt s.pc ⟨m, Stage.reset⟩ participants
        + countAt s.pc ⟨m + 1, Stage.incSpinning⟩ participants
        + countAt s.pc ⟨m + 1, Stage.incPrisoners⟩ participants
        + countAt s.pc ⟨m + 1, Stage.spin⟩ participants = 0 →
      (s.barrier m).prisoners = countAt s.pc ⟨m, Stage.spin⟩ participants
  released :
    1 ≤ countAt s.pc ⟨m, Stage.decSpinning⟩ participants
        + countAt s.pc ⟨m, Stage.reset⟩ participants
        + countAt s.pc ⟨m + 1, Stage.incSpinning⟩ participants
        + countAt s.pc ⟨m + 1, Stage.incPrisoners⟩ participants
        + countAt s.pc ⟨m + 1, Stage.spin⟩ participants →
      countAt s.pc ⟨m, Stage.incSpinning⟩ participants = 0 ∧
      countAt s.pc ⟨m, Stage.incPrisoners⟩ participants = 0 ∧
      (s.barrier m).prisoners = (participants : Int)
  last :
    countAt s.pc ⟨m, Stage.reset⟩ participants ≤ 1 ∧
    (countAt s.pc ⟨m, Stage.reset⟩ participants = 1 →
      countAt s.pc ⟨m, Stage.spin⟩ participants = 0 ∧
      countAt s.pc ⟨m, Stage.decSpinning⟩ participants = 0)

/-- The number of the stage inside `wait()`, in program order. -/
def Stage.index : Stage → Nat
  | Stage.incSpinning => 0
  | Stage.incPrisoners => 1
  | Stage.spin => 2
  | Stage.decSpinning => 3
  | Stage.reset => 4

/-- How far a participant is: every atomic operation that is not one more
round of the spin loop moves the participant to a larger position. -/
def Loc.position (l : Loc) : Nat := 5 * l.waits + l.stage.index

/-- The sum of the positions of the participants below `n`. -/
def progress (pc : Nat → Loc) : Nat → Nat
  | 0 => 0
  | n + 1 => progress pc n + (pc n).position

/-- A fair round: a piece of an interleaving in which only participants act and
every participant acts at least once. -/
def FairRound (r : List Nat) : Prop :=
  (∀ t ∈ r, t < participants) ∧ ∀ t, t < participants → t ∈ r

/-! ## Binary32 arithmetic

The exact model above ignores the rounding of `float` operations.  Where a
property depends on it, the operations are modelled below with the rounding of
IEEE 754 binary32: every operation returns the binary32 number nearest to the
exact result, ties to even, with gradual underflow.  Results of magnitude
`2 ^ 128` and above, which binary32 turns into infinities, are not modelled. -/

/-- The loop of `natLog2`: at most `fuel` halvings of `n`. -/
def log2Aux : Nat → Nat → Nat
  | 0, _ => 0
  | fuel + 1, n => if n < 2 then 0 else log2Aux fuel (n / 2) + 1

/-- The number `⌊log₂ n⌋` of a positive natural number. -/
def natLog2 (n : Nat) : Nat := log2Aux n n

/-- The exponent `⌊log₂ |x|⌋` of a nonzero rational. -/
def ilog2 (x : ℚ) : Int :=
  if (2 : ℚ) ^ ((natLog2 x.num.natAbs : Int) - (natLog2 x.den : Int)) ≤ |x| then
    (natLog2 x.num.natAbs : Int) - (natLog2 x.den : Int)
  else (natLog2 x.num.natAbs : Int) - (natLog2 x.den : Int) - 1

/-- Rounding to the nearest integer, ties to the even one. -/
def roundHalfEven (q : ℚ) : Int :=
  if q - (Int.floor q : ℚ) < 1 / 2 then Int.floor q
  else if 1 / 2 < q - (Int.floor q : ℚ) then Int.floor q + 1
  else if Int.floor q % 2 = 0 then Int.floor q
  else Int.floor q + 1

/-- The exponent of the unit in the last place of the binary32 numbers around
`x`: 24 significant bits, and `2 ^ (-149)` in the subnormal range. -/
def ulpExponent (x : ℚ) : Int := max (ilog2 x - 23) (-149)

/-- Rounding to binary32: to nearest, ties to even. -/
def rnd (x : ℚ) : ℚ :=
  (roundHalfEven (x / (2 : ℚ) ^ ulpExponent x) : ℚ) * (2 : ℚ) ^ ulpExponent x


/-! ## The renderer in binary32

The functions of the renderer again, every `float` operation rounded with
`rnd`.  Conversions to `int`, the frame buffer and the sky are those of the
exact model; the `double` arithmetic of `initSkyColors` stays exact (its
results are never within rounding distance of an integer).  The parameters of
type `ℚ` stand for `float` variables and are meant to hold binary32 values. -/

namespace F32

/-- The constant `camera::deltaFactor`: the binary32 value of the literal
`0.000001f`. -/
def deltaFactor : ℚ := rnd camera.deltaFactor

/-- Lane-wise sum of two `__v4sf`. -/
def add (a b : V4sf) : V4sf :=
  ⟨rnd (a.e0 + b.e0), rnd (a.e1 + b.e1), rnd (a.e2 + b.e2), rnd (a.e3 + b.e3)⟩

/-- Product of a `__v4sf` with a scalar (the scalar is broadcast to all
lanes). -/
def scale (a : V4sf) (s : ℚ) : V4sf :=
  ⟨rnd (a.e0 * s), rnd (a.e1 * s), rnd (a.e2 * s), rnd (a.e3 * s)⟩

/-- The bilinear blend at the end of `getPoint`. -/
def blend (p1 p2 p3 p4 : Point) (fract0 fract1 negFract0 negFract1 : ℚ) : Point :=
  add
    (add
      (add (scale (scale p4 fract0) fract1) (scale (scale p3 negFract0) fract1))
      (scale (scale p2 fract0) negFract1))
    (scale (scale p1 negFract0) negFract1)

/-- The function `getPoint(p, pos)`: the bilinear sample of the landscape at `(pos0, pos1)`. -/
def getPoint (landscape : List Point) (pos0 pos1 : ℚ) : Option Point :=
  let intPos0 : Int := toInt (Int.floor pos0 : ℚ)
  let intPos1 : Int := toInt (Int.floor pos1 : ℚ)
  let nextIntPos0 : Int := wrapInt (intPos0 + 1)
  let nextIntPos1 : Int := wrapInt (intPos1 + 1)
  let fract0 : ℚ := rnd (pos0 - rnd (intPos0 : ℚ))
  let fract1 : ℚ := rnd (pos1 - rnd (intPos1 : ℚ))
  let negFract0 : ℚ := rnd (1 - fract0)
  let negFract1 : ℚ := rnd (1 - fract1)
  match lookup landscape (getMapOffset intPos0 intPos1),
        lookup landscape (getMapOffset nextIntPos0 intPos1),
        lookup landscape (getMapOffset intPos0 nextIntPos1),
        lookup landscape (getMapOffset nextIntPos0 nextIntPos1) with
  | some p1, some p2, some p3, some p4 =>
      some (blend p1 p2 p3 p4 fract0 fract1 negFract0 negFract1)
  | _, _, _, _ => none

/-- The function `calcGeo(sinusAngle, cosinusAngle, z)`. -/
def calcGeo (sinusAngle cosinusAngle z : ℚ) (drawingPosition : V4sf) (horizon : ℚ) : Geo :=
  let cosinusAngleZ : ℚ := rnd (cosinusAngle * z)
  let sinusAngleZ : ℚ := rnd (sinusAngle * z)
  let pl0 : ℚ := rnd (-cosinusAngleZ - sinusAngleZ)
  let pl1 : ℚ := rnd (sinusAngleZ - cosinusAngleZ)
  let d0 : ℚ := rnd (rnd (rnd (cosinusAngleZ - sinusAngleZ) - pl0) / rnd (window.width : ℚ))
  let d1 : ℚ := rnd (rnd (rnd (-sinusAngleZ - cosinusAngleZ) - pl1) / rnd (window.width : ℚ))
  let invZ : ℚ := rnd (camera.heightScaleFactor / z)
  { maxH := toInt (rnd (rnd (rnd (drawingPosition.e2 - 1) * invZ) + horizon))
    pl0 := rnd (pl0 + drawingPosition.e0)
    pl1 := rnd (pl1 + drawingPosition.e1)
    d0 := d0
    d1 := d1
    invZ := invZ }

/-- The projected row `heightOnScreen` of the sample `p`. -/
def heightOnScreen (env : SliceEnv) (p : Point) : Int :=
  toInt (rnd (rnd (rnd (env.drawingPosition.e2 - p.height) * env.geo.invZ) + env.horizon))

/-- The position `pos` the column `i` samples: `geo::pl + geo::d * i`. -/
def columnPos (env : SliceEnv) (i : Nat) : ℚ × ℚ :=
  (rnd (env.geo.pl0 + rnd (env.geo.d0 * rnd (i : ℚ))),
   rnd (env.geo.pl1 + rnd (env.geo.d1 * rnd (i : ℚ))))

/-- The body of the column loop of `drawPartialRow` for the column `i`. -/
def columnStep (landscape : List Point) (surfaceW : Int) (env : SliceEnv) (st : Frame)
    (i : Nat) : Option Frame :=
  if env.geo.maxH ≥ st.hiddenY i then some st
  else
    match getPoint landscape (columnPos env i).1 (columnPos env i).2 with
    | none => none
    | some p =>
      if heightOnScreen env p < st.hiddenY i then
        some { hiddenY := Function.update st.hiddenY i (heightOnScreen env p)
               pixBuf := drawLine surfaceW st.pixBuf p (i : Int)
                 (if heightOnScreen env p < 0 then 0 else heightOnScreen env p) (st.hiddenY i) }
      else some st

/-- The column loop of `drawPartialRow`: `n` columns left, the next one is
`i`. -/
def columnLoop (landscape : List Point) (surfaceW : Int) (env : SliceEnv) :
    Nat → Nat → Frame → Option Frame
  | 0, _, st => some st
  | n + 1, i, st =>
    match columnStep landscape surfaceW env st i with
    | none => none
    | some st1 => columnLoop landscape surfaceW env n (i + 1) st1

/-- One pass of the loop body of `drawPartialRow(fromX, toX)` between the two
barriers. -/
def drawPartialRow (landscape : List Point) (surfaceW : Int) (env : SliceEnv)
    (fromX toX : Nat) (st : Frame) : Option Frame :=
  columnLoop landscape surfaceW env (toX - fromX) fromX st

/-- The work of the painters `k`, `k + 1`, ... (`n` of them) for one slice.
They own disjoint column ranges, so the painters are run one after the
other. -/
def paintersLoop (landscape : List Point) (surfaceW : Int) (env : SliceEnv) :
    Nat → Nat → Frame → Option Frame
  | 0, _, st => some st
  | n + 1, k, st =>
    match drawPartialRow landscape surfaceW env (painterRange k).1 (painterRange k).2 st with
    | none => none
    | some st1 => paintersLoop landscape surfaceW env n (k + 1) st1

/-- What happens between `barrierA.wait()` and `barrierB.wait()` of one slice:
all painters do their columns. -/
def paintSlice (landscape : List Point) (surfaceW : Int) (env : SliceEnv) (st : Frame) :
    Option Frame :=
  paintersLoop landscape surfaceW env painterThreadQuantity 0 st

/-- The slice loop of `render`: `while (z < camera::distance) { body; z = 1.0f +
row * row * row * deltaFactor; ++row; }`.  The first argument bounds the number
of iterations; the result is `none` when the bound is reached or the body
fails. -/
def sliceLoop {σ : Type} (distance : ℚ) (body : ℚ → σ → Option σ) :
    Nat → ℚ → ℚ → σ → Option σ
  | 0, _, _, _ => none
  | fuel + 1, z, row, s =>
    if z < distance then
      match body z s with
      | none => none
      | some s1 =>
        sliceLoop distance body fuel (rnd (1 + rnd (rnd (rnd (row * row) * row) * deltaFactor)))
          (rnd (row + 1)) s1
    else some s

/-- The body of the slice loop of `render`: `calcGeo`, then the painters work
between the two barriers. -/
def sliceBody (landscape : List Point) (surfaceW : Int) (sinusAngle cosinusAngle : ℚ)
    (drawingPosition : V4sf) (horizon : ℚ) (z : ℚ) (st : Frame) : Option Frame :=
  paintSlice landscape surfaceW
    { geo := calcGeo sinusAngle cosinusAngle z drawingPosition horizon
      drawingPosition := drawingPosition
      horizon := horizon } st

/-- One frame of `render()`, up to `paintBlueSky()`: reset, slice loop, sky. -/
def render (trig : Trig) (landscape : List Point) (surfaceW : Int) (angle horizon distance : ℚ)
    (drawingPosition : V4sf) (fuel : Nat) : Option Frame :=
  let sinusAngle : ℚ := trig.sinf angle
  let cosinusAngle : ℚ := trig.cosf angle
  match sliceLoop distance
      (sliceBody landscape surfaceW sinusAngle cosinusAngle drawingPosition horizon)
      fuel 1 1 resetFrame with
  | none => none
  | some st => some (paintBlueSky surfaceW horizon st)

/-- The slice loop of `render` with a body that records the depth `z` of the
slice it is given. -/
def sliceDepths (distance : ℚ) (fuel : Nat) : Option (List ℚ) :=
  sliceLoop distance (fun z zs => some (zs ++ [z])) fuel 1 1 []

/-- The depth `z` at the start of iteration number `k` (from `0`) of the slice
loop, while `row` counts exactly: `1` at first, then the rounded
`1.0f + row * row * row * deltaFactor` for the `row = k` of the iteration
before. -/
def sliceDepth (k : Nat) : ℚ :=
  rnd (1 + rnd (rnd (rnd ((k : ℚ) * (k : ℚ)) * (k : ℚ)) * deltaFactor))

end F32

/-! ## Accumulated rounding error -/

namespace F32

end F32

theorem log2Aux_spec (fuel n : Nat) (h : n ≤ fuel) (hn : n ≠ 0) :
    2 ^ log2Aux fuel n ≤ n ∧ n < 2 ^ (log2Aux fuel n + 1) := by
  induction fuel generalizing n with
  | zero => omega
  | succ f ih =>
    unfold log2Aux
    split
    · constructor
      · simp; omega
      · simp; omega
    · obtain ⟨h4, h5⟩ := ih (n / 2) (by omega) (by omega)
      constructor
      · rw [pow_succ]; omega
      · rw [pow_succ]; omega

theorem natLog2_le (n : Nat) (hn : n ≠ 0) : 2 ^ natLog2 n ≤ n :=
  (log2Aux_spec n n (le_refl n) hn).1

theorem natLog2_lt (n : Nat) : n < 2 ^ (natLog2 n + 1) := by
  by_cases hn : n = 0
  · subst hn
    simp [natLog2, log2Aux]
  · exact (log2Aux_spec n n (le_refl n) hn).2

theorem ilog2_spec (x : ℚ) (hx : x ≠ 0) :
    (2 : ℚ) ^ ilog2 x ≤ |x| ∧ |x| < (2 : ℚ) ^ (ilog2 x + 1) := by
  have hn : x.num.natAbs ≠ 0 := by
    intro h
    exact hx (Rat.zero_of_num_zero (Int.natAbs_eq_zero.mp h))
  have hd : x.den ≠ 0 := x.den_nz
  have hn1 : (2 : ℚ) ^ (natLog2 x.num.natAbs) ≤ (x.num.natAbs : ℚ) := by
    exact_mod_cast natLog2_le _ hn
  have hn2 : (x.num.natAbs : ℚ) < (2 : ℚ) ^ (natLog2 x.num.natAbs + 1) := by
    exact_mod_cast natLog2_lt _
  have hd1 : (2 : ℚ) ^ (natLog2 x.den) ≤ (x.den : ℚ) := by
    exact_mod_cast natLog2_le _ hd
  have hd2 : (x.den : ℚ) < (2 : ℚ) ^ (natLog2 x.den + 1) := by
    exact_mod_cast natLog2_lt _
  have habs : |x| = (x.num.natAbs : ℚ) / (x.den : ℚ) := by
    have h1 : |x| = |(x.num : ℚ)| / (x.den : ℚ) := by
      conv_lhs => rw [← Rat.num_div_den x]
      rw [abs_div, Nat.abs_cast]
    rw [h1, Nat.cast_natAbs, Int.cast_abs]
  have hdpos : (0 : ℚ) < (x.den : ℚ) := by exact_mod_cast x.den_pos
  have h2pos : ∀ k : Int, (0 : ℚ) < (2 : ℚ) ^ k := fun k => zpow_pos (by norm_num) k
  set a : Nat := natLog2 x.num.natAbs with ha
  set b : Nat := natLog2 x.den with hb
  have hup : |x| < (2 : ℚ) ^ ((a : Int) - (b : Int) + 1) := by
    rw [habs, div_lt_iff₀ hdpos]
    have e1 : (2 : ℚ) ^ ((a : Int) - (b : Int) + 1) * (2 : ℚ) ^ (b : Int) =
        (2 : ℚ) ^ (a + 1) := by
      rw [← zpow_add₀ (by norm_num : (2 : ℚ) ≠ 0)]
      have : (a : Int) - (b : Int) + 1 + (b : Int) = ((a + 1 : Nat) : Int) := by push_cast; ring
      rw [this, zpow_natCast]
    calc (x.num.natAbs : ℚ) < (2 : ℚ) ^ (a + 1) := hn2
      _ = (2 : ℚ) ^ ((a : Int) - (b : Int) + 1) * (2 : ℚ) ^ (b : Int) := e1.symm
      _ ≤ (2 : ℚ) ^ ((a : Int) - (b : Int) + 1) * (x.den : ℚ) := by
          apply mul_le_mul_of_nonneg_left _ (le_of_lt (h2pos _))
          rw [zpow_natCast]
          exact hd1
  have hlow : (2 : ℚ) ^ ((a : Int) - (b : Int) - 1) ≤ |x| := by
    rw [habs, le_div_iff₀ hdpos]
    have e1 : (2 : ℚ) ^ ((a : Int) - (b : Int) - 1) * (2 : ℚ) ^ ((b : Int) + 1) =
        (2 : ℚ) ^ a := by
      rw [← zpow_add₀ (by norm_num : (2 : ℚ) ≠ 0)]
      have : (a : Int) - (b : Int) - 1 + ((b : Int) + 1) = (a : Int) := by ring
      rw [this, zpow_natCast]
    calc (2 : ℚ) ^ ((a : Int) - (b : Int) - 1) * (x.den : ℚ)
        ≤ (2 : ℚ) ^ ((a : Int) - (b : Int) - 1) * (2 : ℚ) ^ ((b : Int) + 1) := by
          apply mul_le_mul_of_nonneg_left _ (le_of_lt (h2pos _))
          have : (2 : ℚ) ^ ((b : Int) + 1) = (2 : ℚ) ^ (b + 1) := by
            rw [← zpow_natCast]
            push_cast
            rfl
          rw [this]
          exact le_of_lt hd2
      _ = (2 : ℚ) ^ a := e1
      _ ≤ (x.num.natAbs : ℚ) := hn1
  unfold ilog2
  simp only [← ha, ← hb]
  split
  · rename_i hc
    exact ⟨hc, hup⟩
  · rename_i hc
    refine ⟨hlow, ?_⟩
    have : (a : Int) - (b : Int) - 1 + 1 = (a : Int) - (b : Int) := by ring
    rw [this]
    exact not_le.mp hc

/-- The exponent is determined by the binade. -/
theorem ilog2_eq (x : ℚ) (k : Int) (h1 : (2 : ℚ) ^ k ≤ |x|) (h2 : |x| < (2 : ℚ) ^ (k + 1)) :
    ilog2 x = k := by
  have hx : x ≠ 0 := by
    intro h
    rw [h, abs_zero] at h1
    exact absurd h1 (not_le.mpr (zpow_pos (by norm_num) k))
  obtain ⟨h3, h4⟩ := ilog2_spec x hx
  have hlt : ∀ a b : Int, (2 : ℚ) ^ a < (2 : ℚ) ^ b → a < b := by
    intro a b hab
    by_contra hcon
    have := zpow_le_zpow_right₀ (by norm_num : (1 : ℚ) ≤ 2) (not_lt.mp hcon)
    linarith
  have e1 := hlt k (ilog2 x + 1) (lt_of_le_of_lt h1 h4)
  have e2 := hlt (ilog2 x) (k + 1) (lt_of_le_of_lt h3 h2)
  omega

theorem ilog2_mono (x y : ℚ) (hx : 0 < x) (hxy : x ≤ y) : ilog2 x ≤ ilog2 y := by
  have hy : 0 < y := lt_of_lt_of_le hx hxy
  obtain ⟨h1, _⟩ := ilog2_spec x (ne_of_gt hx)
  obtain ⟨_, h4⟩ := ilog2_spec y (ne_of_gt hy)
  rw [abs_of_pos hx] at h1
  rw [abs_of_pos hy] at h4
  by_contra hcon
  have := zpow_le_zpow_right₀ (by norm_num : (1 : ℚ) ≤ 2) (show ilog2 y + 1 ≤ ilog2 x by omega)
  linarith

theorem roundHalfEven_near (q : ℚ) :
    (roundHalfEven q : ℚ) - q ≤ 1 / 2 ∧ q - (roundHalfEven q : ℚ) ≤ 1 / 2 := by
  have h1 := Int.floor_le q
  have h2 := Int.lt_floor_add_one q
  unfold roundHalfEven
  split
  · constructor <;> linarith
  · split
    · push_cast
      constructor <;> linarith
    · split
      · constructor <;> linarith
      · push_cast
        constructor <;> linarith

theorem roundHalfEven_intCast (n : Int) : roundHalfEven (n : ℚ) = n := by
  unfold roundHalfEven
  simp

theorem roundHalfEven_mono {q r : ℚ} (h : q ≤ r) : roundHalfEven q ≤ roundHalfEven r := by
  have hf := Int.floor_le_floor h
  have hq1 := Int.floor_le q
  have hq2 := Int.lt_floor_add_one q
  have hr1 := Int.floor_le r
  have hr2 := Int.lt_floor_add_one r
  have hlo : ∀ x : ℚ, Int.floor x ≤ roundHalfEven x ∧ roundHalfEven x ≤ Int.floor x + 1 := by
    intro x
    unfold roundHalfEven
    split
    · omega
    · split
      · omega
      · split <;> omega
  rcases lt_or_eq_of_le hf with hlt | heq
  · have := (hlo q).2
    have := (hlo r).1
    omega
  · unfold roundHalfEven
    rw [← heq]
    by_cases c1 : q - (Int.floor q : ℚ) < 1 / 2
    · rw [if_pos c1]
      split
      · exact le_refl _
      · split
        · omega
        · split <;> omega
    · rw [if_neg c1]
      have c1r : ¬ r - (Int.floor q : ℚ) < 1 / 2 := by
        intro hc
        apply c1
        linarith
      rw [if_neg c1r]
      by_cases c2 : 1 / 2 < q - (Int.floor q : ℚ)
      · rw [if_pos c2, if_pos (by linarith)]
      · rw [if_neg c2]
        have c2r : ¬ 1 / 2 < r - (Int.floor q : ℚ) ∨ 1 / 2 < r - (Int.floor q : ℚ) := by
          by_cases hc : 1 / 2 < r - (Int.floor q : ℚ)
          · exact Or.inr hc
          · exact Or.inl hc
        rcases c2r with hc | hc
        · rw [if_neg hc]
        · rw [if_pos hc]
          split <;> omega

/-- A rational within less than a half of an integer rounds to it. -/
theorem roundHalfEven_eq (q : ℚ) (n : Int) (h1 : (n : ℚ) - 1 / 2 < q)
    (h2 : q < (n : ℚ) + 1 / 2) : roundHalfEven q = n := by
  have hn := roundHalfEven_near q
  have h3 : ((roundHalfEven q - n : Int) : ℚ) < 1 := by
    push_cast
    linarith [hn.1]
  have h4 : (-1 : ℚ) < ((roundHalfEven q - n : Int) : ℚ) := by
    push_cast
    linarith [hn.2]
  have h5 : roundHalfEven q - n < 1 := by exact_mod_cast h3
  have h6 : -1 < roundHalfEven q - n := by exact_mod_cast h4
  omega

theorem two_zpow_pos (k : Int) : (0 : ℚ) < (2 : ℚ) ^ k := zpow_pos (by norm_num) k

theorem rnd_zero : rnd 0 = 0 := by
  unfold rnd
  simp [roundHalfEven]

/-- The rounding error is at most half a unit in the last place. -/
theorem rnd_error (x : ℚ) :
    |rnd x - x| ≤ (2 : ℚ) ^ ulpExponent x / 2 := by
  have hp := two_zpow_pos (ulpExponent x)
  have hn := roundHalfEven_near (x / (2 : ℚ) ^ ulpExponent x)
  have hx : x = x / (2 : ℚ) ^ ulpExponent x * (2 : ℚ) ^ ulpExponent x := by
    field_simp
  unfold rnd
  rw [abs_le]
  constructor
  · have h1 := mul_le_mul_of_nonneg_right hn.2 (le_of_lt hp)
    rw [sub_mul, ← hx] at h1
    linarith
  · have h1 := mul_le_mul_of_nonneg_right hn.1 (le_of_lt hp)
    rw [sub_mul, ← hx] at h1
    linarith

theorem rnd_nonneg {x : ℚ} (h : 0 ≤ x) : 0 ≤ rnd x := by
  unfold rnd
  have hp := two_zpow_pos (ulpExponent x)
  apply mul_nonneg _ (le_of_lt hp)
  have h0 : roundHalfEven 0 ≤ roundHalfEven (x / (2 : ℚ) ^ ulpExponent x) :=
    roundHalfEven_mono (div_nonneg h (le_of_lt hp))
  have h1 : roundHalfEven (0 : ℚ) = 0 := by
    have := roundHalfEven_intCast 0
    simpa using this
  rw [h1] at h0
  exact_mod_cast h0

theorem ulpExponent_mono (x y : ℚ) (hx : 0 < x) (hxy : x ≤ y) :
    ulpExponent x ≤ ulpExponent y := by
  unfold ulpExponent
  have := ilog2_mono x y hx hxy
  omega

/-- Below the top of its binade a positive number rounds to at most that
top. -/
theorem rnd_le_top (x : ℚ) (hx : 0 < x) :
    rnd x ≤ (2 : ℚ) ^ (ulpExponent x + 24) := by
  have hp := two_zpow_pos (ulpExponent x)
  obtain ⟨_, h2⟩ := ilog2_spec x (ne_of_gt hx)
  rw [abs_of_pos hx] at h2
  have he : ilog2 x + 1 ≤ ulpExponent x + 24 := by
    unfold ulpExponent
    omega
  have h3 : x ≤ (2 : ℚ) ^ (ulpExponent x + 24) :=
    le_trans (le_of_lt h2) (zpow_le_zpow_right₀ (by norm_num) he)
  have h4 : x / (2 : ℚ) ^ ulpExponent x ≤ ((2 ^ 24 : Int) : ℚ) := by
    rw [div_le_iff₀ hp]
    have : ((2 ^ 24 : Int) : ℚ) * (2 : ℚ) ^ ulpExponent x = (2 : ℚ) ^ (ulpExponent x + 24) := by
      rw [zpow_add₀ (by norm_num : (2 : ℚ) ≠ 0)]
      norm_num
      ring
    rw [this]
    exact h3
  have h5 := roundHalfEven_mono h4
  rw [roundHalfEven_intCast] at h5
  unfold rnd
  have h6 : (roundHalfEven (x / (2 : ℚ) ^ ulpExponent x) : ℚ) ≤ ((2 ^ 24 : Int) : ℚ) := by
    exact_mod_cast h5
  calc (roundHalfEven (x / (2 : ℚ) ^ ulpExponent x) : ℚ) * (2 : ℚ) ^ ulpExponent x
      ≤ ((2 ^ 24 : Int) : ℚ) * (2 : ℚ) ^ ulpExponent x :=
        mul_le_mul_of_nonneg_right h6 (le_of_lt hp)
    _ = (2 : ℚ) ^ (ulpExponent x + 24) := by
        rw [zpow_add₀ (by norm_num : (2 : ℚ) ≠ 0)]
        norm_num
        ring

/-- A positive normal number rounds to at least the bottom of its binade. -/
theorem rnd_ge_bottom (y : ℚ) (hy : 0 < y) (he : ulpExponent y = ilog2 y - 23) :
    (2 : ℚ) ^ (ulpExponent y + 23) ≤ rnd y := by
  have hp := two_zpow_pos (ulpExponent y)
  obtain ⟨h1, _⟩ := ilog2_spec y (ne_of_gt hy)
  rw [abs_of_pos hy] at h1
  have h3 : (2 : ℚ) ^ (ulpExponent y + 23) ≤ y := by
    have : ulpExponent y + 23 = ilog2 y := by omega
    rw [this]
    exact h1
  have h4 : ((2 ^ 23 : Int) : ℚ) ≤ y / (2 : ℚ) ^ ulpExponent y := by
    rw [le_div_iff₀ hp]
    have : ((2 ^ 23 : Int) : ℚ) * (2 : ℚ) ^ ulpExponent y = (2 : ℚ) ^ (ulpExponent y + 23) := by
      rw [zpow_add₀ (by norm_num : (2 : ℚ) ≠ 0)]
      norm_num
      ring
    rw [this]
    exact h3
  have h5 := roundHalfEven_mono h4
  rw [roundHalfEven_intCast] at h5
  unfold rnd
  have h6 : ((2 ^ 23 : Int) : ℚ) ≤ (roundHalfEven (y / (2 : ℚ) ^ ulpExponent y) : ℚ) := by
    exact_mod_cast h5
  calc (2 : ℚ) ^ (ulpExponent y + 23)
      = ((2 ^ 23 : Int) : ℚ) * (2 : ℚ) ^ ulpExponent y := by
        rw [zpow_add₀ (by norm_num : (2 : ℚ) ≠ 0)]
        norm_num
        ring
    _ ≤ (roundHalfEven (y / (2 : ℚ) ^ ulpExponent y) : ℚ) * (2 : ℚ) ^ ulpExponent y :=
        mul_le_mul_of_nonneg_right h6 (le_of_lt hp)

theorem rnd_mono_pos (x y : ℚ) (hx : 0 < x) (hxy : x ≤ y) : rnd x ≤ rnd y := by
  have hy : 0 < y := lt_of_lt_of_le hx hxy
  have he := ulpExponent_mono x y hx hxy
  rcases lt_or_eq_of_le he with hlt | heq
  · have h1 := rnd_le_top x hx
    have hnorm : ulpExponent y = ilog2 y - 23 := by
      have hxe : -149 ≤ ulpExponent x := by
        unfold ulpExponent
        omega
      unfold ulpExponent at hlt ⊢
      omega
    have h2 := rnd_ge_bottom y hy hnorm
    have h3 : (2 : ℚ) ^ (ulpExponent x + 24) ≤ (2 : ℚ) ^ (ulpExponent y + 23) :=
      zpow_le_zpow_right₀ (by norm_num) (by omega)
    linarith
  · unfold rnd
    rw [← heq]
    have hp := two_zpow_pos (ulpExponent x)
    apply mul_le_mul_of_nonneg_right _ (le_of_lt hp)
    have : x / (2 : ℚ) ^ ulpExponent x ≤ y / (2 : ℚ) ^ ulpExponent x :=
      div_le_div_of_nonneg_right hxy (le_of_lt hp)
    exact_mod_cast roundHalfEven_mono this

theorem ilog2_neg (x : ℚ) : ilog2 (-x) = ilog2 x := by
  unfold ilog2
  simp only [Rat.neg_num, Int.natAbs_neg, Rat.neg_den, abs_neg]

theorem roundHalfEven_neg (q : ℚ) : roundHalfEven (-q) = -roundHalfEven q := by
  by_cases hint : (Int.floor q : ℚ) = q
  · rw [← hint, ← Int.cast_neg, roundHalfEven_intCast, roundHalfEven_intCast]
  · have h1 := Int.floor_le q
    have h2 := Int.lt_floor_add_one q
    have hlt : (Int.floor q : ℚ) < q := lt_of_le_of_ne h1 hint
    have hfl : Int.floor (-q) = -Int.floor q - 1 := by
      rw [Int.floor_eq_iff]
      push_cast
      constructor <;> linarith
    unfold roundHalfEven
    rw [hfl]
    push_cast
    by_cases c1 : q - (Int.floor q : ℚ) < 1 / 2
    · rw [if_pos c1, if_neg (by linarith), if_pos (by linarith)]
      ring
    · rw [if_neg c1]
      by_cases c2 : 1 / 2 < q - (Int.floor q : ℚ)
      · rw [if_pos c2, if_pos (by linarith)]
        ring
      · rw [if_neg c2, if_neg (by linarith), if_neg (by linarith)]
        by_cases c3 : Int.floor q % 2 = 0
        · rw [if_pos c3, if_neg (by omega)]
          ring
        · rw [if_neg c3, if_pos (by omega)]
          ring

theorem rnd_neg (x : ℚ) : rnd (-x) = -rnd x := by
  unfold rnd ulpExponent
  rw [ilog2_neg, neg_div, roundHalfEven_neg]
  push_cast
  ring

/-- Rounding to binary32 is monotone. -/
theorem rnd_mono {x y : ℚ} (h : x ≤ y) : rnd x ≤ rnd y := by
  rcases lt_trichotomy x 0 with hx | hx | hx
  · rcases lt_trichotomy y 0 with hy | hy | hy
    · have := rnd_mono_pos (-y) (-x) (by linarith) (by linarith)
      rw [rnd_neg, rnd_neg] at this
      linarith
    · rw [hy, rnd_zero]
      have := rnd_nonneg (show (0 : ℚ) ≤ -x by linarith)
      rw [rnd_neg] at this
      linarith
    · have h1 := rnd_nonneg (show (0 : ℚ) ≤ -x by linarith)
      rw [rnd_neg] at h1
      have h2 := rnd_nonneg (le_of_lt hy)
      linarith
  · rw [hx, rnd_zero]
    exact rnd_nonneg (by linarith)
  · exact rnd_mono_pos x y hx h

/-- The natural numbers up to `2 ^ 24` are binary32 numbers. -/
theorem rnd_natCast (n : Nat) (hn : n ≤ 16777216) : rnd (n : ℚ) = n := by
  by_cases h0 : n = 0
  · subst h0
    simpa using rnd_zero
  have hpos : (0 : ℚ) < (n : ℚ) := by exact_mod_cast Nat.pos_of_ne_zero h0
  by_cases htop : n = 16777216
  · subst htop
    have hl : ilog2 ((16777216 : Nat) : ℚ) = 24 := by
      apply ilog2_eq
      · rw [abs_of_pos hpos]
        norm_num
      · rw [abs_of_pos hpos]
        norm_num
    unfold rnd ulpExponent
    rw [hl]
    norm_num
    have : ((8388608 : Int) : ℚ) = 8388608 := by norm_num
    rw [← this, roundHalfEven_intCast]
    norm_num
  · have hlt : n < 16777216 := by omega
    obtain ⟨h1, h2⟩ := ilog2_spec (n : ℚ) (ne_of_gt hpos)
    rw [abs_of_pos hpos] at h1
    have hl : ilog2 (n : ℚ) ≤ 23 := by
      by_contra hcon
      have := zpow_le_zpow_right₀ (by norm_num : (1 : ℚ) ≤ 2) (show (24 : Int) ≤ ilog2 (n : ℚ) by omega)
      have hn' : (n : ℚ) < 16777216 := by exact_mod_cast hlt
      norm_num at this
      linarith
    have hl0 : 0 ≤ ilog2 (n : ℚ) := by
      by_contra hcon
      have h3 : ilog2 (n : ℚ) + 1 ≤ 0 := by omega
      have := zpow_le_zpow_right₀ (by norm_num : (1 : ℚ) ≤ 2) h3
      rw [abs_of_pos hpos] at h2
      have hn' : (1 : ℚ) ≤ (n : ℚ) := by exact_mod_cast Nat.pos_of_ne_zero h0
      norm_num at this
      linarith
    have he : ulpExponent (n : ℚ) = ilog2 (n : ℚ) - 23 := by
      unfold ulpExponent
      omega
    obtain ⟨k, hk⟩ : ∃ k : Nat, ulpExponent (n : ℚ) = -(k : Int) :=
      ⟨(23 - ilog2 (n : ℚ)).toNat, by omega⟩
    unfold rnd
    rw [hk, zpow_neg, zpow_natCast, div_inv_eq_mul]
    have : (n : ℚ) * 2 ^ k = ((n * 2 ^ k : Nat) : Int) := by push_cast; ring
    rw [this, roundHalfEven_intCast]
    push_cast
    field_simp

theorem rnd_one : rnd 1 = 1 := by
  have := rnd_natCast 1 (by norm_num)
  simpa using this

/-- In the normal range the relative error of rounding is at most
`2 ^ (-24)`. -/
theorem rnd_rel_error_normal (x : ℚ) (hx : 1 / 2 ^ 126 ≤ |x|) :
    |rnd x - x| ≤ |x| / 16777216 := by
  have herr := rnd_error x
  have hx0 : x ≠ 0 := by
    intro h
    rw [h, abs_zero] at hx
    norm_num at hx
  obtain ⟨h1, h2⟩ := ilog2_spec x hx0
  have hlog : -126 ≤ ilog2 x := by
    by_contra hcon
    have h3 : ilog2 x + 1 ≤ -126 := by omega
    have h4 := zpow_le_zpow_right₀ (by norm_num : (1 : ℚ) ≤ 2) h3
    have h5 : (2 : ℚ) ^ (-126 : Int) = 1 / 2 ^ 126 := by
      rw [zpow_neg]
      norm_num
    rw [h5] at h4
    linarith
  have he : ulpExponent x = ilog2 x - 23 := by
    unfold ulpExponent
    omega
  rw [he] at herr
  have e1 : (2 : ℚ) ^ (ilog2 x - 23) / 2 = (2 : ℚ) ^ ilog2 x / 16777216 := by
    rw [zpow_sub₀ (by norm_num : (2 : ℚ) ≠ 0)]
    norm_num
    ring
  rw [e1] at herr
  have e2 : (2 : ℚ) ^ ilog2 x / 16777216 ≤ |x| / 16777216 :=
    div_le_div_of_nonneg_right h1 (by norm_num)
  linarith

/-- Rounding a positive number of the normal range changes it by a factor
between `1 - 2 ^ (-24)` and `1 + 2 ^ (-24)`. -/
theorem rnd_between (x : ℚ) (hx : 1 / 2 ^ 126 ≤ x) :
    x * (16777215 / 16777216) ≤ rnd x ∧ rnd x ≤ x * (16777217 / 16777216) := by
  have hpos : (0 : ℚ) < x := lt_of_lt_of_le (by norm_num) hx
  have h := rnd_rel_error_normal x (by rw [abs_of_pos hpos]; exact hx)
  rw [abs_of_pos hpos, abs_le] at h
  constructor <;> linarith [h.1, h.2]
/-! ## Lemmas on the sampler -/

theorem toInt_intCast (n : Int) : toInt (n : ℚ) = n := by
  unfold toInt
  split <;> simp

/-- The truncating remainder by 1024 is above `-1024`. -/
theorem tmod_mapWidth_gt (x : Int) : -1024 < x.tmod 1024 := by
  rw [Int.tmod_def]
  rcases le_or_lt 0 x with h | h
  · rw [Int.tdiv_eq_ediv h (by norm_num)]
    omega
  · have hq : x.tdiv 1024 = -((-x) / 1024) := by
      have h2 := Int.neg_tdiv (-x) 1024
      rw [neg_neg] at h2
      rw [h2, Int.tdiv_eq_ediv (by omega) (by norm_num)]
    rw [hq]
    omega

/-- One wrapped coordinate of `getMapOffset` is the euclidean remainder. -/
theorem wrapCoord_eq_emod (x : Int) :
    (x.tmod mapWidth + mapWidth).tmod mapWidth = x % mapWidth := by
  unfold mapWidth
  have h1 : -1024 < x.tmod 1024 := tmod_mapWidth_gt x
  have h2 : x.tmod 1024 < 1024 := Int.tmod_lt_of_pos x (by norm_num)
  rw [Int.tmod_eq_emod (by omega) (by norm_num)]
  have h3 : x.tmod 1024 % 1024 = x % 1024 := by
    rw [Int.tmod_def]
    omega
  omega

theorem getMapOffset_eq (x y : Int) :
    getMapOffset x y = (y % mapWidth) * mapWidth + x % mapWidth := by
  unfold getMapOffset
  rw [wrapCoord_eq_emod, wrapCoord_eq_emod]

theorem getMapOffset_nonneg (x y : Int) : 0 ≤ getMapOffset x y := by
  rw [getMapOffset_eq]
  unfold mapWidth
  have := Int.emod_nonneg x (b := 1024) (by norm_num)
  have := Int.emod_nonneg y (b := 1024) (by norm_num)
  nlinarith

theorem getMapOffset_lt (x y : Int) : getMapOffset x y < mapWidth * mapWidth := by
  rw [getMapOffset_eq]
  unfold mapWidth
  have := Int.emod_lt_of_pos x (b := 1024) (by norm_num)
  have := Int.emod_lt_of_pos y (b := 1024) (by norm_num)
  omega

theorem wrapInt_emod (n : Int) : wrapInt n % mapWidth = n % mapWidth := by
  unfold wrapInt mapWidth
  omega

theorem getMapOffset_wrapInt_left (x y : Int) :
    getMapOffset (wrapInt x) y = getMapOffset x y := by
  rw [getMapOffset_eq, getMapOffset_eq, wrapInt_emod]

theorem getMapOffset_wrapInt_right (x y : Int) :
    getMapOffset x (wrapInt y) = getMapOffset x y := by
  rw [getMapOffset_eq, getMapOffset_eq, wrapInt_emod]

theorem getMapOffset_shift_left (x y k : Int) :
    getMapOffset (x + k * mapWidth) y = getMapOffset x y := by
  rw [getMapOffset_eq, getMapOffset_eq, Int.add_mul_emod_self]

theorem getMapOffset_shift_right (x y k : Int) :
    getMapOffset x (y + k * mapWidth) = getMapOffset x y := by
  rw [getMapOffset_eq, getMapOffset_eq, Int.add_mul_emod_self]

theorem lookup_isSome (landscape : List Point)
    (hlen : (landscape.length : Int) = mapWidth * mapWidth) (x y : Int) :
    ∃ p, lookup landscape (getMapOffset x y) = some p := by
  have h0 := getMapOffset_nonneg x y
  have h1 := getMapOffset_lt x y
  unfold lookup
  rw [if_neg (by omega)]
  have hlt : (getMapOffset x y).toNat < landscape.length := by omega
  exact ⟨landscape[(getMapOffset x y).toNat], List.getElem?_eq_getElem hlt⟩


theorem getPoint_isSome (landscape : List Point)
    (hlen : (landscape.length : Int) = mapWidth * mapWidth) (pos0 pos1 : ℚ) :
    ∃ p, getPoint landscape pos0 pos1 = some p := by
  unfold getPoint
  obtain ⟨p1, h1⟩ := lookup_isSome landscape hlen (toInt (Int.floor pos0 : ℚ))
    (toInt (Int.floor pos1 : ℚ))
  obtain ⟨p2, h2⟩ := lookup_isSome landscape hlen (wrapInt (toInt (Int.floor pos0 : ℚ) + 1))
    (toInt (Int.floor pos1 : ℚ))
  obtain ⟨p3, h3⟩ := lookup_isSome landscape hlen (toInt (Int.floor pos0 : ℚ))
    (wrapInt (toInt (Int.floor pos1 : ℚ) + 1))
  obtain ⟨p4, h4⟩ := lookup_isSome landscape hlen (wrapInt (toInt (Int.floor pos0 : ℚ) + 1))
    (wrapInt (toInt (Int.floor pos1 : ℚ) + 1))
  simp only [h1, h2, h3, h4]
  exact ⟨_, rfl⟩

/-- At a grid point the blend is the cell `p1`. -/
theorem blend_grid (p1 p2 p3 p4 : Point) : blend p1 p2 p3 p4 0 0 1 1 = p1 := by
  cases p1
  simp [blend, V4sf.add, V4sf.scale]

/-- At a grid point `getPoint` returns the cell of that point. -/
theorem getPoint_grid (landscape : List Point)
    (hlen : (landscape.length : Int) = mapWidth * mapWidth) (x y : Int) :
    getPoint landscape (x : ℚ) (y : ℚ) = lookup landscape (getMapOffset x y) := by
  unfold getPoint
  simp only [Int.floor_intCast, toInt_intCast]
  obtain ⟨p1, h1⟩ := lookup_isSome landscape hlen x y
  obtain ⟨p2, h2⟩ := lookup_isSome landscape hlen (wrapInt (x + 1)) y
  obtain ⟨p3, h3⟩ := lookup_isSome landscape hlen x (wrapInt (y + 1))
  obtain ⟨p4, h4⟩ := lookup_isSome landscape hlen (wrapInt (x + 1)) (wrapInt (y + 1))
  simp only [h1, h2, h3, h4, sub_self, sub_zero]
  rw [blend_grid]

/-- A landscape of `mapWidth * mapWidth` copies of one cell. -/
theorem flat_length (p : Point) :
    ((flatLandscape p).length : Int) = mapWidth * mapWidth := by
  unfold flatLandscape
  rw [List.length_replicate]
  rfl

/-- The wraparound invariant of the sampler (claim C3): an integer grid
coordinate shifted by a multiple of `mapWidth` along either axis is sampled to
the same point, negative coordinates included. -/
theorem getPoint_wraparound (landscape : List Point)
    (hlen : (landscape.length : Int) = mapWidth * mapWidth) (x y k : Int) :
    ∃ p, getPoint landscape (x : ℚ) (y : ℚ) = some p ∧
      getPoint landscape ((x + k * mapWidth : Int) : ℚ) (y : ℚ) = some p ∧
      getPoint landscape (x : ℚ) ((y + k * mapWidth : Int) : ℚ) = some p := by
  obtain ⟨p, hp⟩ := lookup_isSome landscape hlen x y
  refine ⟨p, ?_, ?_, ?_⟩
  · rw [getPoint_grid landscape hlen, hp]
  · rw [getPoint_grid landscape hlen, getMapOffset_shift_left, hp]
  · rw [getPoint_grid landscape hlen, getMapOffset_shift_right, hp]

theorem getPoint_wraparound_witness :
    ∃ p, getPoint (flatLandscape ⟨10, 20, 30, 1 / 2⟩) ((-3 : Int) : ℚ)
        ((5 : Int) : ℚ) = some p ∧
      getPoint (flatLandscape ⟨10, 20, 30, 1 / 2⟩)
        (((-3) + (-2) * mapWidth : Int) : ℚ) ((5 : Int) : ℚ) = some p ∧
      getPoint (flatLandscape ⟨10, 20, 30, 1 / 2⟩) ((-3 : Int) : ℚ)
        ((5 + (-2) * mapWidth : Int) : ℚ) = some p :=
  getPoint_wraparound _ (flat_length _) (-3) 5 (-2)

/-- The result of `getPoint` is the blend of the cells at its four offsets. -/
theorem getPoint_via_offsets (landscape : List Point) (pos0 pos1 : ℚ) :
    getPoint landscape pos0 pos1 =
      match (getPointOffsets pos0 pos1).map (lookup landscape) with
      | [some p1, some p2, some p3, some p4] =>
        some (blend p1 p2 p3 p4 (pos0 - toInt (Int.floor pos0 : ℚ))
          (pos1 - toInt (Int.floor pos1 : ℚ)) (1 - (pos0 - toInt (Int.floor pos0 : ℚ)))
          (1 - (pos1 - toInt (Int.floor pos1 : ℚ))))
      | _ => none := by
  unfold getPoint getPointOffsets
  simp only [List.map_cons, List.map_nil]
  split <;> rename_i h1 h2 h3 h4
  · simp only [h1, h2, h3, h4]
  · split
    · rename_i q1 q2 q3 q4 heq
      simp only [List.cons.injEq, and_true] at heq
      exact (h4 q1 q2 q3 q4 heq.1 heq.2.1 heq.2.2.1 heq.2.2.2).elim
    · rfl

/-- The sampler never indexes outside the heightfield (claim C4): each of the
four offsets of `getPoint` lies in `[0, mapWidth * mapWidth)` (with the
truncating remainder, for negative coordinates too), so on a heightfield of
that length each lookup finds a cell and `getPoint` returns a point. -/
theorem getPoint_offsets_in_range (landscape : List Point)
    (hlen : (landscape.length : Int) = mapWidth * mapWidth) (pos0 pos1 : ℚ) :
    (∀ off ∈ getPointOffsets pos0 pos1,
      0 ≤ off ∧ off < mapWidth * mapWidth ∧ ∃ p, lookup landscape off = some p) ∧
    ∃ p, getPoint landscape pos0 pos1 = some p := by
  refine ⟨?_, getPoint_isSome landscape hlen pos0 pos1⟩
  intro off hoff
  simp only [getPointOffsets, List.mem_cons, List.mem_singleton, List.not_mem_nil,
    or_false] at hoff
  rcases hoff with h | h | h | h <;> rw [h] <;>
    exact ⟨getMapOffset_nonneg _ _, getMapOffset_lt _ _, lookup_isSome landscape hlen _ _⟩

theorem getPoint_offsets_in_range_witness :
    (∀ off ∈ getPointOffsets (-7 / 2) 2147483647,
      0 ≤ off ∧ off < mapWidth * mapWidth ∧
        ∃ p, lookup (flatLandscape ⟨10, 20, 30, 1 / 2⟩) off = some p) ∧
    ∃ p, getPoint (flatLandscape ⟨10, 20, 30, 1 / 2⟩) (-7 / 2) 2147483647 = some p :=
  getPoint_offsets_in_range _ (flat_length _) (-7 / 2) 2147483647

/-! ## Lemmas on `drawLine` and the column step -/

theorem drawLineLoop_eq (surfaceW : Int) (col : Pixel) (x : Int) (n : Nat) (i : Int)
    (buf : PixBuf) :
    drawLineLoop surfaceW col x n i buf =
      ((List.range n).map (fun k : Nat => (x + (i + (k : Int)) * surfaceW, col))).reverse
        ++ buf := by
  induction n generalizing i buf with
  | zero => simp [drawLineLoop]
  | succ n ih =>
    rw [drawLineLoop, ih, List.range_succ_eq_map]
    simp only [PixBuf.store, List.map_cons, List.map_map, List.reverse_cons,
      List.append_assoc, List.singleton_append, Nat.cast_zero, add_zero]
    congr 2
    apply List.map_congr_left
    intro k _
    simp only [Function.comp, Nat.cast_succ]
    congr 2
    ring

/-- What `drawLine` stores are the rows `fromY ≤ y < toY` of the column, each
once. -/
theorem drawLine_spec (surfaceW : Int) (buf : PixBuf) (p : Point) (x fromY toY : Int) :
    ∃ new : PixBuf, drawLine surfaceW buf p x fromY toY = new ++ buf ∧
      (∀ e, e ∈ new ↔ ∃ y : Int, fromY ≤ y ∧ y < toY ∧ e = (x + y * surfaceW, pixCol p)) ∧
      (surfaceW ≠ 0 → (new.map Prod.fst).Nodup) := by
  refine ⟨_, drawLineLoop_eq surfaceW (pixCol p) x _ fromY buf, ?_, ?_⟩
  · intro e
    simp only [List.mem_reverse, List.mem_map, List.mem_range]
    constructor
    · rintro ⟨k, hk, rfl⟩
      exact ⟨fromY + k, by omega, by omega, rfl⟩
    · rintro ⟨y, h1, h2, rfl⟩
      refine ⟨(y - fromY).toNat, by omega, ?_⟩
      have : ((y - fromY).toNat : Int) = y - fromY := by omega
      rw [this]
      congr 2
      ring
  · intro hw
    rw [List.map_reverse, List.nodup_reverse, List.map_map]
    refine (List.nodup_range _).map_on ?_
    intro a _ b _ hab
    simp only [Function.comp] at hab
    have h1 : (fromY + (a : Int)) * surfaceW = (fromY + (b : Int)) * surfaceW := by linarith
    have h2 := mul_right_cancel₀ hw h1
    omega

/-- The effect of the column step: either nothing changes, or the sample is
above the horizon, the rows between the sample and the old horizon are drawn
and the horizon moves to the sample. -/
theorem columnStep_spec (landscape : List Point)
    (hlen : (landscape.length : Int) = mapWidth * mapWidth) (surfaceW : Int) (env : SliceEnv)
    (st : Frame) (i : Nat) :
    columnStep landscape surfaceW env st i = some st ∨
    ∃ p, getPoint landscape (env.geo.pl0 + env.geo.d0 * (i : ℚ))
        (env.geo.pl1 + env.geo.d1 * (i : ℚ)) = some p ∧
      heightOnScreen env p < st.hiddenY i ∧
      columnStep landscape surfaceW env st i =
        some { hiddenY := Function.update st.hiddenY i (heightOnScreen env p)
               pixBuf := drawLine surfaceW st.pixBuf p (i : Int)
                 (max 0 (heightOnScreen env p)) (st.hiddenY i) } := by
  unfold columnStep
  by_cases hskip : env.geo.maxH ≥ st.hiddenY i
  · left
    rw [if_pos hskip]
  · rw [if_neg hskip]
    obtain ⟨p, hp⟩ := getPoint_isSome landscape hlen (env.geo.pl0 + env.geo.d0 * (i : ℚ))
      (env.geo.pl1 + env.geo.d1 * (i : ℚ))
    simp only [hp]
    by_cases hdraw : heightOnScreen env p < st.hiddenY i
    · right
      refine ⟨p, rfl, hdraw, ?_⟩
      rw [if_pos hdraw]
      congr 3
      by_cases hneg : heightOnScreen env p < 0
      · rw [if_pos hneg, max_eq_left (le_of_lt hneg)]
      · rw [if_neg hneg, max_eq_right (not_lt.mp hneg)]
    · left
      rw [if_neg hdraw]

/-- On a heightfield of full length the column step returns a frame. -/
theorem columnStep_isSome (landscape : List Point)
    (hlen : (landscape.length : Int) = mapWidth * mapWidth) (surfaceW : Int) (env : SliceEnv)
    (st : Frame) (i : Nat) : ∃ st1, columnStep landscape surfaceW env st i = some st1 := by
  rcases columnStep_spec landscape hlen surfaceW env st i with h | ⟨p, _, _, h⟩
  · exact ⟨_, h⟩
  · exact ⟨_, h⟩

/-- The column step never raises the horizon of its column and leaves the
other columns alone. -/
theorem columnStep_hiddenY (landscape : List Point)
    (hlen : (landscape.length : Int) = mapWidth * mapWidth) (surfaceW : Int) (env : SliceEnv)
    (st st1 : Frame) (i : Nat) (h : columnStep landscape surfaceW env st i = some st1) :
    st1.hiddenY i ≤ st.hiddenY i ∧ ∀ j, j ≠ i → st1.hiddenY j = st.hiddenY j := by
  rcases columnStep_spec landscape hlen surfaceW env st i with h1 | ⟨p, _, hlt, h1⟩
  · rw [h1] at h
    cases h
    exact ⟨le_refl _, fun _ _ => rfl⟩
  · rw [h1] at h
    cases h
    refine ⟨?_, ?_⟩
    · simp only [Function.update_same]
      exact le_of_lt hlt
    · intro j hj
      simp only [Function.update_noteq hj]

theorem columnTrace_isSome (landscape : List Point)
    (hlen : (landscape.length : Int) = mapWidth * mapWidth) (surfaceW : Int) (i : Nat)
    (envs : List SliceEnv) (st : Frame) :
    ∃ tr, columnTrace landscape surfaceW i envs st = some (st :: tr) ∧
      tr.length = envs.length := by
  induction envs generalizing st with
  | nil => exact ⟨[], rfl, rfl⟩
  | cons env envs ih =>
    obtain ⟨st1, h1⟩ := columnStep_isSome landscape hlen surfaceW env st i
    obtain ⟨tr, h2, h3⟩ := ih st1
    refine ⟨st1 :: tr, ?_, by simp [h3]⟩
    simp only [columnTrace, h1, h2]

/-- Every frame of a trace has a horizon at or below that of the first. -/
theorem columnTrace_le_head (landscape : List Point)
    (hlen : (landscape.length : Int) = mapWidth * mapWidth) (surfaceW : Int) (i : Nat)
    (envs : List SliceEnv) (st : Frame) (tr : List Frame)
    (h : columnTrace landscape surfaceW i envs st = some tr) :
    ∀ b ∈ tr, b.hiddenY i ≤ st.hiddenY i := by
  induction envs generalizing st tr with
  | nil =>
    simp only [columnTrace, Option.some.injEq] at h
    subst h
    simp
  | cons env envs ih =>
    obtain ⟨st1, h1⟩ := columnStep_isSome landscape hlen surfaceW env st i
    obtain ⟨tr1, h2, _⟩ := columnTrace_isSome landscape hlen surfaceW i envs st1
    simp only [columnTrace, h1, h2, Option.some.injEq] at h
    subst h
    have hle := (columnStep_hiddenY landscape hlen surfaceW env st st1 i h1).1
    intro b hb
    rcases List.mem_cons.mp hb with rfl | hb
    · exact le_refl _
    · exact le_trans (ih st1 _ h2 b hb) hle

/-- Horizon monotonicity (claim C1): for every column and every sequence of
slices (any geometry, any sampled height), from any starting frame and so from
the per-frame reset, the column steps return a frame after every slice, the
horizon of the column after a slice is at most its horizon before the slice,
and the sequence of horizons is non-increasing. -/
theorem horizon_monotone (landscape : List Point)
    (hlen : (landscape.length : Int) = mapWidth * mapWidth) (surfaceW : Int) (i : Nat)
    (envs : List SliceEnv) (st : Frame) :
    ∃ tr, columnTrace landscape surfaceW i envs st = some tr ∧
      tr.length = envs.length + 1 ∧ tr.head? = some st ∧
      List.Chain' (fun a b : Frame => b.hiddenY i ≤ a.hiddenY i) tr ∧
      List.Pairwise (fun a b : Frame => b.hiddenY i ≤ a.hiddenY i) tr := by
  have key : ∀ (envs : List SliceEnv) (st : Frame) (tr : List Frame),
      columnTrace landscape surfaceW i envs st = some tr →
      List.Pairwise (fun a b : Frame => b.hiddenY i ≤ a.hiddenY i) tr := by
    intro envs
    induction envs with
    | nil =>
      intro st tr h
      simp only [columnTrace, Option.some.injEq] at h
      subst h
      simp
    | cons env envs ih =>
      intro st tr h
      obtain ⟨st1, h1⟩ := columnStep_isSome landscape hlen surfaceW env st i
      obtain ⟨tr1, h2, _⟩ := columnTrace_isSome landscape hlen surfaceW i envs st1
      simp only [columnTrace, h1, h2, Option.some.injEq] at h
      subst h
      have hle := (columnStep_hiddenY landscape hlen surfaceW env st st1 i h1).1
      refine List.pairwise_cons.mpr ⟨?_, ih st1 _ h2⟩
      intro b hb
      exact le_trans (columnTrace_le_head landscape hlen surfaceW i envs st1 _ h2 b hb) hle
  obtain ⟨tr, h, hl⟩ := columnTrace_isSome landscape hlen surfaceW i envs st
  have hp := key envs st _ h
  exact ⟨st :: tr, h, by simp [hl], rfl, List.Pairwise.chain' hp, hp⟩

theorem horizon_monotone_witness :
    ((flatLandscape ⟨10, 20, 30, 1 / 2⟩).length : Int) = mapWidth * mapWidth ∧
    ∃ tr, columnTrace (flatLandscape ⟨10, 20, 30, 1 / 2⟩) 1920 7
        [⟨calcGeo 0 1 500 ⟨0, 0, 5, 0⟩ 540, ⟨0, 0, 5, 0⟩, 540⟩,
         ⟨calcGeo 0 1 600 ⟨0, 0, 5, 0⟩ 540, ⟨0, 0, 5, 0⟩, 540⟩] resetFrame = some tr ∧
      tr.length = 2 + 1 ∧ tr.head? = some resetFrame ∧
      List.Chain' (fun a b : Frame => b.hiddenY 7 ≤ a.hiddenY 7) tr ∧
      List.Pairwise (fun a b : Frame => b.hiddenY 7 ≤ a.hiddenY 7) tr :=
  ⟨flat_length _, horizon_monotone _ (flat_length _) 1920 7 _ resetFrame⟩

/-- The column step keeps `ColumnInv`, and its stores are those of
`SliceWrites`. -/
theorem columnStep_inv (landscape : List Point)
    (hlen : (landscape.length : Int) = mapWidth * mapWidth) (surfaceW : Int)
    (hw : surfaceW ≠ 0) (env : SliceEnv) (st st1 : Frame) (i : Nat)
    (hinv : ColumnInv surfaceW i st)
    (h : columnStep landscape surfaceW env st i = some st1) :
    ColumnInv surfaceW i st1 ∧ SliceWrites surfaceW i st st1 := by
  rcases columnStep_spec landscape hlen surfaceW env st i with h1 | ⟨p, _, hlt, h1⟩
  · rw [h1] at h
    cases h
    refine ⟨hinv, [], rfl, ?_, ?_, ?_⟩
    · intro e he
      cases he
    · intro y hy1 hy2
      have := le_max_right 0 (st.hiddenY i)
      omega
    · intro e he
      cases he
  · rw [h1] at h
    cases h
    obtain ⟨new, hnew, hmem, hnodup⟩ := drawLine_spec surfaceW st.pixBuf p (i : Int)
      (max 0 (heightOnScreen env p)) (st.hiddenY i)
    have hdisj : ∀ e ∈ new, ∀ e1 ∈ st.pixBuf, e.1 ≠ e1.1 := by
      intro e he e1 he1 heq
      obtain ⟨y, _, hy2, rfl⟩ := (hmem e).mp he
      obtain ⟨y1, _, hy4, hy5⟩ := hinv.2 e1 he1
      rw [hy5] at heq
      have h2 : y * surfaceW = y1 * surfaceW := by
        simp only at heq
        linarith
      have h3 := mul_right_cancel₀ hw h2
      omega
    refine ⟨⟨?_, ?_⟩, new, hnew, ?_, ?_, hdisj⟩
    · unfold WrittenOnce
      simp only [hnew, List.map_append]
      refine List.Nodup.append (hnodup hw) hinv.1 ?_
      intro a ha1 ha2
      obtain ⟨e, he, rfl⟩ := List.mem_map.mp ha1
      obtain ⟨e1, he1, heq⟩ := List.mem_map.mp ha2
      exact hdisj e he e1 he1 heq.symm
    · intro e he
      simp only [hnew, List.mem_append] at he
      simp only [Function.update_same]
      rcases he with he | he
      · obtain ⟨y, hy1, _, rfl⟩ := (hmem e).mp he
        exact ⟨y, le_trans (le_max_left _ _) hy1, le_trans (le_max_right _ _) hy1, rfl⟩
      · obtain ⟨y, hy1, hy2, hy3⟩ := hinv.2 e he
        exact ⟨y, hy1, by omega, hy3⟩
    · intro e he
      simp only [Function.update_same]
      obtain ⟨y, hy1, hy2, rfl⟩ := (hmem e).mp he
      exact ⟨y, hy1, hy2, rfl⟩
    · intro y hy1 hy2
      simp only [Function.update_same] at hy1
      exact ⟨_, (hmem _).mpr ⟨y, hy1, hy2, rfl⟩, rfl⟩

theorem columnTrace_inv (landscape : List Point)
    (hlen : (landscape.length : Int) = mapWidth * mapWidth) (surfaceW : Int)
    (hw : surfaceW ≠ 0) (i : Nat) (envs : List SliceEnv) (st : Frame)
    (hinv : ColumnInv surfaceW i st) :
    ∃ tr, columnTrace landscape surfaceW i envs st = some (st :: tr) ∧
      List.Chain' (SliceWrites surfaceW i) (st :: tr) ∧
      ∀ b ∈ st :: tr, WrittenOnce b := by
  induction envs generalizing st with
  | nil =>
    refine ⟨[], rfl, List.chain'_singleton _, ?_⟩
    intro b hb
    rw [List.mem_singleton] at hb
    rw [hb]
    exact hinv.1
  | cons env envs ih =>
    obtain ⟨st1, h1⟩ := columnStep_isSome landscape hlen surfaceW env st i
    obtain ⟨hinv1, hw1⟩ := columnStep_inv landscape hlen surfaceW hw env st st1 i hinv h1
    obtain ⟨tr, h2, h3, h4⟩ := ih st1 hinv1
    refine ⟨st1 :: tr, ?_, List.chain'_cons.mpr ⟨hw1, h3⟩, ?_⟩
    · simp only [columnTrace, h1, h2]
    · intro b hb
      rcases List.mem_cons.mp hb with rfl | hb
      · exact hinv.1
      · exact h4 b hb

theorem resetFrame_inv (surfaceW : Int) (i : Nat) : ColumnInv surfaceW i resetFrame := by
  refine ⟨?_, ?_⟩
  · simp [WrittenOnce, resetFrame]
  · intro e he
    simp [resetFrame] at he

/-- Occlusion correctness (claim C2): from the per-frame reset, for every
column and every sequence of slices, the rows a slice stores for the column
are the rows from `max 0 heightOnScreen` up to the old horizon, none of them
was stored to by an earlier slice of the frame, and so after every slice every
cell of the frame buffer has been stored to at most once; this holds for
negative projected rows too. -/
theorem occlusion_no_overdraw (landscape : List Point)
    (hlen : (landscape.length : Int) = mapWidth * mapWidth) (surfaceW : Int)
    (hw : surfaceW ≠ 0) (i : Nat) (envs : List SliceEnv) :
    ∃ tr, columnTrace landscape surfaceW i envs resetFrame = some tr ∧
      List.Chain' (SliceWrites surfaceW i) tr ∧ ∀ b ∈ tr, WrittenOnce b := by
  obtain ⟨tr, h1, h2, h3⟩ := columnTrace_inv landscape hlen surfaceW hw i envs resetFrame
    (resetFrame_inv surfaceW i)
  exact ⟨_, h1, h2, h3⟩

theorem occlusion_no_overdraw_witness :
    ((flatLandscape ⟨10, 20, 30, 1 / 2⟩).length : Int) = mapWidth * mapWidth ∧
    (1920 : Int) ≠ 0 ∧
    ∃ tr, columnTrace (flatLandscape ⟨10, 20, 30, 1 / 2⟩) 1920 7
        [⟨calcGeo 0 1 500 ⟨0, 0, 5, 0⟩ 540, ⟨0, 0, 5, 0⟩, 540⟩,
         ⟨calcGeo 0 1 600 ⟨0, 0, 5, 0⟩ (-2000), ⟨0, 0, 5, 0⟩, -2000⟩] resetFrame = some tr ∧
      List.Chain' (SliceWrites 1920 7) tr ∧ ∀ b ∈ tr, WrittenOnce b :=
  ⟨flat_length _, by decide,
    occlusion_no_overdraw _ (flat_length _) 1920 (by decide) 7 _⟩

/-! ### The horizon through a whole slice -/

theorem columnLoop_hiddenY_le (landscape : List Point)
    (hlen : (landscape.length : Int) = mapWidth * mapWidth) (surfaceW : Int) (env : SliceEnv)
    (n : Nat) : ∀ (i : Nat) (st : Frame),
    ∃ st1, columnLoop landscape surfaceW env n i st = some st1 ∧
      ∀ j, st1.hiddenY j ≤ st.hiddenY j := by
  induction n with
  | zero =>
    intro i st
    exact ⟨st, rfl, fun _ => le_refl _⟩
  | succ n ih =>
    intro i st
    obtain ⟨st1, h1⟩ := columnStep_isSome landscape hlen surfaceW env st i
    obtain ⟨hle, hother⟩ := columnStep_hiddenY landscape hlen surfaceW env st st1 i h1
    obtain ⟨st2, h2, hle2⟩ := ih (i + 1) st1
    refine ⟨st2, ?_, ?_⟩
    · simp only [columnLoop, h1, h2]
    · intro j
      by_cases hj : j = i
      · subst hj
        exact le_trans (hle2 j) hle
      · have := hother j hj
        have := hle2 j
        omega

theorem paintersLoop_hiddenY_le (landscape : List Point)
    (hlen : (landscape.length : Int) = mapWidth * mapWidth) (surfaceW : Int) (env : SliceEnv)
    (n : Nat) : ∀ (k : Nat) (st : Frame),
    ∃ st1, paintersLoop landscape surfaceW env n k st = some st1 ∧
      ∀ j, st1.hiddenY j ≤ st.hiddenY j := by
  induction n with
  | zero =>
    intro k st
    exact ⟨st, rfl, fun _ => le_refl _⟩
  | succ n ih =>
    intro k st
    obtain ⟨st1, h1, hle1⟩ := columnLoop_hiddenY_le landscape hlen surfaceW env
      ((painterRange k).2 - (painterRange k).1) (painterRange k).1 st
    obtain ⟨st2, h2, hle2⟩ := ih (k + 1) st1
    refine ⟨st2, ?_, fun j => le_trans (hle2 j) (hle1 j)⟩
    simp only [paintersLoop, drawPartialRow, h1, h2]

/-- One slice of the frame, all painters and all columns: it returns a frame,
and no column has its horizon raised. -/
theorem paintSlice_hiddenY_le (landscape : List Point)
    (hlen : (landscape.length : Int) = mapWidth * mapWidth) (surfaceW : Int) (env : SliceEnv)
    (st : Frame) :
    ∃ st1, paintSlice landscape surfaceW env st = some st1 ∧
      ∀ j, st1.hiddenY j ≤ st.hiddenY j :=
  paintersLoop_hiddenY_le landscape hlen surfaceW env painterThreadQuantity 0 st
/-! ## Helper lemmas -/

theorem lookup_mem (landscape : List Point) (off : Int) (p : Point)
    (h : lookup landscape off = some p) : p ∈ landscape := by
  unfold lookup at h
  split at h
  · cases h
  · exact List.getElem?_mem h

theorem flat_cells (p : Point) : ∀ c ∈ flatLandscape p, c = p := by
  intro c hc
  exact List.eq_of_mem_replicate hc
/-! ## The slice loop -/

theorem deltaFactor_eq : F32.deltaFactor = 8796093 / 8796093022208 := by
  unfold F32.deltaFactor camera.deltaFactor
  decide!

theorem f32_sliceDepth_zero : F32.sliceDepth 0 = 1 := by
  unfold F32.sliceDepth
  simp [rnd_zero, rnd_one]

theorem f32_sliceDepth_mono : Monotone F32.sliceDepth := by
  intro j k hjk
  have hjk1 : (j : ℚ) ≤ (k : ℚ) := by exact_mod_cast hjk
  have hj : (0 : ℚ) ≤ (j : ℚ) := Nat.cast_nonneg j
  have hk : (0 : ℚ) ≤ (k : ℚ) := Nat.cast_nonneg k
  have hd : (0 : ℚ) ≤ F32.deltaFactor := by
    rw [deltaFactor_eq]
    norm_num
  unfold F32.sliceDepth
  apply rnd_mono
  apply add_le_add_left
  apply rnd_mono
  apply mul_le_mul_of_nonneg_right _ hd
  apply rnd_mono
  apply mul_le_mul _ hjk1 hj (rnd_nonneg (mul_nonneg hk hk))
  apply rnd_mono
  exact mul_le_mul hjk1 hjk1 hj hk

theorem f32_sliceDepth_ge_one (k : Nat) : 1 ≤ F32.sliceDepth k := by
  rw [← f32_sliceDepth_zero]
  exact f32_sliceDepth_mono (Nat.zero_le k)

theorem depth_chain_lower (t δ β a b c z : ℚ) (ht : 0 ≤ t) (hδ : 0 ≤ δ) (hβ : 0 ≤ β)
    (ha : t * t * β ≤ a) (hb : a * t * β ≤ b) (hc : b * δ * β ≤ c) (hz : (1 + c) * β ≤ z) :
    (1 + t ^ 3 * δ * β ^ 3) * β ≤ z := by
  calc (1 + t ^ 3 * δ * β ^ 3) * β = (1 + t * t * β * t * β * δ * β) * β := by ring
    _ ≤ (1 + a * t * β * δ * β) * β := by gcongr
    _ ≤ (1 + b * δ * β) * β := by gcongr
    _ ≤ (1 + c) * β := by gcongr
    _ ≤ z := hz

theorem depth_chain_upper (t δ α a b c z : ℚ) (ht : 0 ≤ t) (hδ : 0 ≤ δ) (hα : 0 ≤ α)
    (ha : a ≤ t * t * α) (hb : b ≤ a * t * α) (hc : c ≤ b * δ * α) (hz : z ≤ (1 + c) * α) :
    z ≤ (1 + t ^ 3 * δ * α ^ 3) * α := by
  calc z ≤ (1 + c) * α := hz
    _ ≤ (1 + b * δ * α) * α := by gcongr
    _ ≤ (1 + a * t * α * δ * α) * α := by gcongr
    _ ≤ (1 + t * t * α * t * α * δ * α) * α := by gcongr
    _ = (1 + t ^ 3 * δ * α ^ 3) * α := by ring

/-- The depth of iteration `k` is the exact `1 + k ^ 3 * deltaFactor` up to four
roundings. -/
theorem f32_sliceDepth_bounds (k : Nat) (hk : 1 ≤ k) :
    (1 + (k : ℚ) ^ 3 * F32.deltaFactor * (16777215 / 16777216) ^ 3) * (16777215 / 16777216) ≤
      F32.sliceDepth k ∧
    F32.sliceDepth k ≤
      (1 + (k : ℚ) ^ 3 * F32.deltaFactor * (16777217 / 16777216) ^ 3) * (16777217 / 16777216) := by
  have ht : (1 : ℚ) ≤ (k : ℚ) := by exact_mod_cast hk
  have ht0 : (0 : ℚ) ≤ (k : ℚ) := by linarith
  have hd : (0 : ℚ) ≤ F32.deltaFactor := by
    rw [deltaFactor_eq]
    norm_num
  have hd1 : (1 : ℚ) / 2 ^ 20 ≤ F32.deltaFactor := by
    rw [deltaFactor_eq]
    norm_num
  unfold F32.sliceDepth
  generalize F32.deltaFactor = δ at *
  generalize (k : ℚ) = t at *
  have htt : (1 : ℚ) ≤ t * t := one_le_mul_of_one_le_of_one_le ht ht
  have ha := rnd_between (t * t) (le_trans (by norm_num) htt)
  generalize rnd (t * t) = a at *
  have ha1 : (1 : ℚ) / 2 ≤ a := by linarith [ha.1]
  have hat : (1 : ℚ) / 2 ≤ a * t := by nlinarith
  have hb := rnd_between (a * t) (le_trans (by norm_num) hat)
  generalize rnd (a * t) = b at *
  have hb1 : (1 : ℚ) / 4 ≤ b := by linarith [hb.1]
  have hbd : (1 : ℚ) / 2 ^ 22 ≤ b * δ := by nlinarith
  have hc := rnd_between (b * δ) (le_trans (by norm_num) hbd)
  generalize rnd (b * δ) = c at *
  have hc0 : (0 : ℚ) ≤ c := by linarith [hc.1]
  have hz := rnd_between (1 + c) (le_trans (by norm_num) (by linarith : (1 : ℚ) ≤ 1 + c))
  generalize rnd (1 + c) = z at *
  exact ⟨depth_chain_lower t δ _ a b c z ht0 hd (by norm_num) ha.1 hb.1 hc.1 hz.1,
    depth_chain_upper t δ _ a b c z ht0 hd (by norm_num) ha.2 hb.2 hc.2 hz.2⟩

theorem depth_gap (t δ α β : ℚ) (ht : 0 ≤ t) (hδ : 0 ≤ δ) (hβ : 0 ≤ β)
    (h1 : t * (α ^ 4 - β ^ 4) ≤ 3 * β ^ 4) (h2 : α - β < δ * β ^ 4) :
    (1 + t ^ 3 * δ * α ^ 3) * α < (1 + (t + 1) ^ 3 * δ * β ^ 3) * β := by
  have key : (1 + (t + 1) ^ 3 * δ * β ^ 3) * β - (1 + t ^ 3 * δ * α ^ 3) * α =
      (β - α) + δ * (t ^ 2 * (3 * β ^ 4 - t * (α ^ 4 - β ^ 4)) + 3 * t * β ^ 4) +
        δ * β ^ 4 := by ring
  have hb4 : 0 ≤ β ^ 4 := pow_nonneg hβ 4
  have p1 : 0 ≤ t ^ 2 * (3 * β ^ 4 - t * (α ^ 4 - β ^ 4)) :=
    mul_nonneg (sq_nonneg t) (by linarith)
  have p2 : 0 ≤ 3 * t * β ^ 4 := mul_nonneg (mul_nonneg (by norm_num) ht) hb4
  have p3 : 0 ≤ δ * (t ^ 2 * (3 * β ^ 4 - t * (α ^ 4 - β ^ 4)) + 3 * t * β ^ 4) :=
    mul_nonneg hδ (add_nonneg p1 p2)
  linarith

/-- Up to row six million each slice is strictly deeper than the one
before. -/
theorem f32_sliceDepth_lt_succ (k : Nat) (hk : k < 6000000) :
    F32.sliceDepth k < F32.sliceDepth (k + 1) := by
  by_cases h0 : k = 0
  · subst h0
    rw [f32_sliceDepth_zero]
    unfold F32.sliceDepth F32.deltaFactor camera.deltaFactor
    decide!
  · have hk1 : 1 ≤ k := Nat.one_le_iff_ne_zero.mpr h0
    have hu := (f32_sliceDepth_bounds k hk1).2
    have hl := (f32_sliceDepth_bounds (k + 1) (by omega)).1
    have ht0 : (0 : ℚ) ≤ (k : ℚ) := Nat.cast_nonneg k
    have htN : (k : ℚ) ≤ 6000000 := by exact_mod_cast le_of_lt hk
    have hgap := depth_gap (k : ℚ) F32.deltaFactor (16777217 / 16777216) (16777215 / 16777216)
      ht0 (by rw [deltaFactor_eq]; norm_num) (by norm_num)
      (by
        have := mul_le_mul_of_nonneg_right htN
          (by norm_num : (0 : ℚ) ≤ (16777217 / 16777216) ^ 4 - (16777215 / 16777216) ^ 4)
        refine le_trans this ?_
        norm_num)
      (by rw [deltaFactor_eq]; norm_num)
    have hcast : (((k + 1 : Nat) : ℚ)) = (k : ℚ) + 1 := by push_cast; ring
    rw [hcast] at hl
    linarith

theorem f32_sliceDepth_lt (j k : Nat) (hjk : j < k) (hk : k ≤ 6000000) :
    F32.sliceDepth j < F32.sliceDepth k :=
  lt_of_lt_of_le (f32_sliceDepth_lt_succ j (by omega)) (f32_sliceDepth_mono (by omega))

/-- The slice loop, entered at iteration `k` with `n` slices in front of the
view distance, runs its body on these `n` slices in turn and stops; the row
counter is exact below `2 ^ 24`. -/
theorem f32_sliceLoop_unroll {σ : Type} (distance : ℚ) (body : ℚ → σ → Option σ) (n : Nat) :
    ∀ (k fuel : Nat) (s : σ), k + n < 16777216 →
      (∀ j, j < k + n → F32.sliceDepth j < distance) →
      distance ≤ F32.sliceDepth (k + n) → n < fuel →
      F32.sliceLoop distance body fuel (F32.sliceDepth k) ((k : ℚ) + 1) s =
        ((List.range' k n).map F32.sliceDepth).foldlM (fun s z => body z s) s := by
  induction n with
  | zero =>
    intro k fuel s _ _ hstop hfuel
    obtain ⟨f, rfl⟩ : ∃ f, fuel = f + 1 := ⟨fuel - 1, by omega⟩
    rw [Nat.add_zero] at hstop
    rw [F32.sliceLoop, if_neg (not_lt.mpr hstop)]
    rfl
  | succ n ih =>
    intro k fuel s hrow hlt hstop hfuel
    obtain ⟨f, rfl⟩ : ∃ f, fuel = f + 1 := ⟨fuel - 1, by omega⟩
    rw [F32.sliceLoop, if_pos (hlt k (by omega))]
    have hcast : (k : ℚ) + 1 = ((k + 1 : Nat) : ℚ) := by push_cast; ring
    have hz : rnd (1 + rnd (rnd (rnd (((k : ℚ) + 1) * ((k : ℚ) + 1)) * ((k : ℚ) + 1)) *
        F32.deltaFactor)) = F32.sliceDepth (k + 1) := by
      rw [hcast]
      rfl
    have hrow1 : rnd ((k : ℚ) + 1 + 1) = ((k + 1 : Nat) : ℚ) + 1 := by
      have h2 : (k : ℚ) + 1 + 1 = ((k + 2 : Nat) : ℚ) := by push_cast; ring
      rw [h2, rnd_natCast (k + 2) (by omega)]
      push_cast
      ring
    simp only [List.range', List.map_cons, List.foldlM_cons]
    cases hb : body (F32.sliceDepth k) s with
    | none => rfl
    | some s1 =>
      rw [hz, hrow1]
      have := ih (k + 1) f s1 (by omega) (fun j hj => hlt j (by omega))
        (by rw [show k + 1 + n = k + (n + 1) by omega]; exact hstop) (by omega)
      simp only [this]
      rfl

/-- The slice loop from the start of `render`. -/
theorem f32_sliceLoop_eq_fold {σ : Type} (distance : ℚ) (body : ℚ → σ → Option σ) (K : Nat)
    (hK : K < 16777216) (hstop : distance ≤ F32.sliceDepth K)
    (hlt : ∀ j, j < K → F32.sliceDepth j < distance)
    (fuel : Nat) (hfuel : K < fuel) (s : σ) :
    F32.sliceLoop distance body fuel 1 1 s =
      ((List.range K).map F32.sliceDepth).foldlM (fun s z => body z s) s := by
  have h := f32_sliceLoop_unroll distance body K 0 fuel s (by omega) (by simpa using hlt)
    (by simpa using hstop) hfuel
  rw [f32_sliceDepth_zero] at h
  simp only [Nat.cast_zero, zero_add] at h
  rw [h, List.range_eq_range']

theorem record_fold (zs acc : List ℚ) :
    zs.foldlM (fun (s : List ℚ) (z : ℚ) => (some (s ++ [z]) : Option (List ℚ))) acc =
      some (acc ++ zs) := by
  induction zs generalizing acc with
  | nil => simp
  | cons z zs ih =>
    rw [List.foldlM_cons]
    show zs.foldlM _ (acc ++ [z]) = _
    rw [ih]
    simp

theorem f32_sliceDepth_far : (200000000000000 : ℚ) ≤ F32.sliceDepth 6000000 := by
  unfold F32.sliceDepth F32.deltaFactor camera.deltaFactor
  decide!

/-- The number of slices in front of a view distance of at most `2 * 10 ^ 14`. -/
theorem f32_sliceCount_exists (distance : ℚ) (hd : distance ≤ 200000000000000) :
    ∃ K, K ≤ 6000000 ∧ distance ≤ F32.sliceDepth K ∧
      ∀ j, j < K → F32.sliceDepth j < distance := by
  classical
  have hex : ∃ k, distance ≤ F32.sliceDepth k := ⟨6000000, le_trans hd f32_sliceDepth_far⟩
  refine ⟨Nat.find hex, Nat.find_min' hex (le_trans hd f32_sliceDepth_far),
    Nat.find_spec hex, ?_⟩
  intro j hj
  exact not_le.mp (Nat.find_min hex hj)

/-- While the body succeeds, the slice loop never stops for a view distance
beyond the depth at which the row counter stops counting. -/
theorem f32_sliceLoop_stuck {σ : Type} (distance : ℚ) (body : ℚ → σ → Option σ)
    (hbody : ∀ z s, (body z s).isSome) (hd : F32.sliceDepth 16777216 < distance)
    (fuel : Nat) : ∀ (n : Nat) (z : ℚ) (s : σ), n ≤ 16777216 → z ≤ F32.sliceDepth 16777216 →
      F32.sliceLoop distance body fuel z (n : ℚ) s = none := by
  induction fuel with
  | zero =>
    intro n z s _ _
    rfl
  | succ f ih =>
    intro n z s hn hz
    rw [F32.sliceLoop, if_pos (lt_of_le_of_lt hz hd)]
    have hb := hbody z s
    cases hbs : body z s with
    | none => rfl
    | some s1 =>
      simp only
      have hznext : rnd (1 + rnd (rnd (rnd ((n : ℚ) * (n : ℚ)) * (n : ℚ)) * F32.deltaFactor)) ≤
          F32.sliceDepth 16777216 := f32_sliceDepth_mono hn
      by_cases htop : n = 16777216
      · have hrow : rnd ((n : ℚ) + 1) = ((16777216 : Nat) : ℚ) := by
          rw [htop]
          decide!
        rw [hrow]
        exact ih 16777216 _ s1 (le_refl _) hznext
      · have hrow : rnd ((n : ℚ) + 1) = ((n + 1 : Nat) : ℚ) := by
          have h2 : (n : ℚ) + 1 = ((n + 1 : Nat) : ℚ) := by push_cast; ring
          rw [h2, rnd_natCast (n + 1) (by omega)]
        rw [hrow]
        exact ih (n + 1) _ s1 (by omega) hznext

theorem f32_sliceDepth_top : F32.sliceDepth 16777216 < 10000000272564224 := by
  unfold F32.sliceDepth F32.deltaFactor camera.deltaFactor
  decide!

/-- Slice progression in binary32 (claim C9, amended): for every view distance
up to `2 * 10 ^ 14` the slice loop of `render` stops after finitely many
iterations (at most six million and one; every larger iteration bound gives the
same result); the slices it processes are the depths `sliceDepth k` (the rounded
`1 + k * k * k * deltaFactor`) for `k = 0, 1, ..., K - 1`, where `K` is the first
`k` whose depth is at or beyond the distance; each processed depth is in
`[1, distance)`, and the depths are strictly increasing. -/
theorem slice_progression_bounded (distance : ℚ) (hd : distance ≤ 200000000000000) :
    ∃ (K : Nat) (zs : List ℚ), K ≤ 6000000 ∧
      (∀ fuel, K < fuel → F32.sliceDepths distance fuel = some zs) ∧
      zs = (List.range K).map F32.sliceDepth ∧
      distance ≤ F32.sliceDepth K ∧ (∀ j, j < K → F32.sliceDepth j < distance) ∧
      (∀ z ∈ zs, 1 ≤ z ∧ z < distance) ∧
      List.Chain' (fun a b : ℚ => a < b) zs ∧ List.Pairwise (fun a b : ℚ => a < b) zs := by
  obtain ⟨K, hK, hstop, hlt⟩ := f32_sliceCount_exists distance hd
  have hpair : List.Pairwise (fun a b : ℚ => a < b) ((List.range K).map F32.sliceDepth) := by
    rw [List.pairwise_map]
    have hr := List.pairwise_lt_range K
    have hmem : ∀ a ∈ List.range K, a < K := fun a ha => List.mem_range.mp ha
    exact (List.Pairwise.and_mem.mp hr).imp
      (fun h => f32_sliceDepth_lt _ _ h.2.2 (by have := hmem _ h.2.1; omega))
  refine ⟨K, (List.range K).map F32.sliceDepth, hK, ?_, rfl, hstop, hlt, ?_, hpair.chain',
    hpair⟩
  · intro fuel hfuel
    unfold F32.sliceDepths
    rw [f32_sliceLoop_eq_fold distance _ K (by omega) hstop hlt fuel hfuel, record_fold]
    simp
  · intro z hz
    obtain ⟨j, hj, rfl⟩ := List.mem_map.mp hz
    exact ⟨f32_sliceDepth_ge_one j, hlt j (List.mem_range.mp hj)⟩

/-- The slice loop at the view distance `4000` of the first frame: it stops, and
its first three depths are `1`, `1 + 8 / 2 ^ 23` and `1 + 67 / 2 ^ 23`. -/
theorem slice_progression_bounded_witness :
    (4000 : ℚ) ≤ 200000000000000 ∧
    (∃ (K : Nat) (zs : List ℚ), K ≤ 6000000 ∧
      (∀ fuel, K < fuel → F32.sliceDepths 4000 fuel = some zs) ∧
      zs = (List.range K).map F32.sliceDepth ∧
      (4000 : ℚ) ≤ F32.sliceDepth K ∧ (∀ j, j < K → F32.sliceDepth j < 4000) ∧
      (∀ z ∈ zs, 1 ≤ z ∧ z < 4000) ∧
      List.Chain' (fun a b : ℚ => a < b) zs ∧ List.Pairwise (fun a b : ℚ => a < b) zs) ∧
    F32.sliceDepths (1 + 1 / 100000) 5 =
      some [1, 1 + 8 / 8388608, 1 + 67 / 8388608] :=
  ⟨by norm_num, slice_progression_bounded 4000 (by norm_num), by decide!⟩

/-- Slice progression does not hold for every finite view distance (claim C9):
at the distance `1e16f` (the binary32 number `10000000272564224`) the slice loop
of `render` never stops.  The row counter stays at `2 ^ 24` (in binary32
`2 ^ 24 + 1` rounds to `2 ^ 24`), so `z` stays at the depth of that row, which
is below the distance: no iteration bound is enough. -/
theorem slice_loop_diverges :
    rnd 10000000272564224 = 10000000272564224 ∧
    rnd (16777216 + 1) = 16777216 ∧
    F32.sliceDepth 16777216 < 10000000272564224 ∧
    ¬ ∃ fuel, (F32.sliceDepths 10000000272564224 fuel).isSome := by
  refine ⟨by decide!, by decide!, f32_sliceDepth_top, ?_⟩
  rintro ⟨fuel, h⟩
  have hstuck := f32_sliceLoop_stuck 10000000272564224
    (fun (z : ℚ) (zs : List ℚ) => (some (zs ++ [z]) : Option (List ℚ)))
    (fun _ _ => rfl) f32_sliceDepth_top fuel 1 1 [] (by norm_num)
    (f32_sliceDepth_ge_one 16777216)
  unfold F32.sliceDepths at h
  simp only [Nat.cast_one] at hstuck
  rw [hstuck] at h
  exact absurd h (by simp)

/-! ## The flight model: landing -/

theorem blend_same (p : Point) (f0 f1 : ℚ) : blend p p p p f0 f1 (1 - f0) (1 - f1) = p := by
  cases p
  simp only [blend, V4sf.add, V4sf.scale, V4sf.mk.injEq]
  refine ⟨?_, ?_, ?_, ?_⟩ <;> ring

theorem lookup_flat (p : Point) (x y : Int) :
    lookup (flatLandscape p) (getMapOffset x y) = some p := by
  obtain ⟨q, hq⟩ := lookup_isSome (flatLandscape p) (flat_length p) x y
  rw [hq, flat_cells p q (lookup_mem _ _ _ hq)]

/-- On a flat heightfield every sample is the cell. -/
theorem getPoint_flat (p : Point) (pos0 pos1 : ℚ) :
    getPoint (flatLandscape p) pos0 pos1 = some p := by
  unfold getPoint
  simp only [lookup_flat, blend_same]

/-- The landing branch of the tick: a tick that starts below altitude `1` and
at or below the sampled terrain height plus `0.011` ends with the speed zero in
all three components, the altitude at the terrain height plus `0.0111` and the
other two coordinates as they were. -/
theorem physicsTick_landing (trig : Trig) (landscape : List Point) (keys : Keys)
    (angle horizon : ℚ) (st : Flight) (pv : Point)
    (hpv : getPoint landscape st.position.e0 st.position.e1 = some pv)
    (hlow : st.position.e2 < 1) (hland : st.position.e2 ≤ pv.height + 11 / 1000) :
    ∃ st1, physicsTick trig landscape keys angle horizon st = some st1 ∧
      st1.speed.e0 = 0 ∧ st1.speed.e1 = 0 ∧ st1.speed.e2 = 0 ∧
      st1.position.e0 = st.position.e0 ∧ st1.position.e1 = st.position.e1 ∧
      st1.position.e2 = pv.height + 111 / 10000 ∧
      (keys = noKeys → st1.power = st.power ∧ st1.runApp = st.runApp) := by
  unfold physicsTick
  simp only
  rw [if_neg (by intro h; linarith [h.1]), if_pos hlow]
  simp only [hpv, if_pos hland]
  refine ⟨_, rfl, rfl, rfl, rfl, ?_, ?_, ?_, ?_⟩
  · simp [V4sf.add]
  · simp [V4sf.add]
  · simp [V4sf.add]
  · intro hk
    subst hk
    simp [noKeys, enginePower]

/-- On a heightfield of full length the tick returns a state. -/
theorem physicsTick_isSome (trig : Trig) (landscape : List Point)
    (hlen : (landscape.length : Int) = mapWidth * mapWidth) (keys : Keys)
    (angle horizon : ℚ) (st : Flight) :
    ∃ st1, physicsTick trig landscape keys angle horizon st = some st1 := by
  obtain ⟨pv, hpv⟩ := getPoint_isSome landscape hlen st.position.e0 st.position.e1
  unfold physicsTick
  simp only
  split
  · exact ⟨_, rfl⟩
  · split
    · rw [hpv]
      simp only
      split
      · exact ⟨_, rfl⟩
      · exact ⟨_, rfl⟩
    · exact ⟨_, rfl⟩

theorem physicsTick_snap (trig : Trig) (landscape : List Point) (keys : Keys)
    (angle horizon : ℚ) (st st1 : Flight)
    (h : physicsTick trig landscape keys angle horizon st = some st1) :
    LandingSnap landscape st st1 := by
  intro pv hpv hlow hland
  obtain ⟨st2, h2, h3, h4, h5, h6, h7, h8, _⟩ :=
    physicsTick_landing trig landscape keys angle horizon st pv hpv hlow hland
  rw [h] at h2
  cases h2
  refine ⟨h3, h4, h5, h6, h7, h8, ?_⟩
  rw [h8]
  linarith

/-- Landing without a fixed point (claim C6, amended): a tick with no key
pressed that starts with speed zero, below altitude `1` and with the altitude
at or below the sampled terrain height plus `0.011`, for any power, angle and
horizon, leaves the speed zero, the power, `runApp` and the horizontal position
unchanged, and sets the altitude to the terrain height plus `0.0111`, which is
above the altitude the tick started with. -/
theorem landed_tick (trig : Trig) (landscape : List Point) (angle horizon : ℚ) (st : Flight)
    (pv : Point) (hpv : getPoint landscape st.position.e0 st.position.e1 = some pv)
    (hlow : st.position.e2 < 1) (hland : st.position.e2 ≤ pv.height + 11 / 1000)
    (hspeed : st.speed.e0 = 0 ∧ st.speed.e1 = 0 ∧ st.speed.e2 = 0) :
    ∃ st1, physicsTick trig landscape noKeys angle horizon st = some st1 ∧
      st1.speed.e0 = st.speed.e0 ∧ st1.speed.e1 = st.speed.e1 ∧ st1.speed.e2 = st.speed.e2 ∧
      st1.position.e0 = st.position.e0 ∧ st1.position.e1 = st.position.e1 ∧
      st1.position.e2 = pv.height + 111 / 10000 ∧ st.position.e2 < st1.position.e2 ∧
      st1.power = st.power ∧ st1.runApp = st.runApp := by
  obtain ⟨st1, h1, h2, h3, h4, h5, h6, h7, h8⟩ :=
    physicsTick_landing trig landscape noKeys angle horizon st pv hpv hlow hland
  refine ⟨st1, h1, ?_, ?_, ?_, h5, h6, h7, ?_, (h8 rfl).1, (h8 rfl).2⟩
  · rw [h2, hspeed.1]
  · rw [h3, hspeed.2.1]
  · rw [h4, hspeed.2.2]
  · rw [h7]
    linarith

theorem landed_tick_witness :
    getPoint (flatLandscape ⟨10, 20, 30, 1 / 2⟩) restingFlight.position.e0
        restingFlight.position.e1 = some ⟨10, 20, 30, 1 / 2⟩ ∧
    ∃ st1, physicsTick testTrig (flatLandscape ⟨10, 20, 30, 1 / 2⟩) noKeys 0 540
        restingFlight = some st1 ∧
      st1.speed.e0 = restingFlight.speed.e0 ∧ st1.speed.e1 = restingFlight.speed.e1 ∧
      st1.speed.e2 = restingFlight.speed.e2 ∧
      st1.position.e0 = restingFlight.position.e0 ∧
      st1.position.e1 = restingFlight.position.e1 ∧
      st1.position.e2 = Point.height ⟨10, 20, 30, 1 / 2⟩ + 111 / 10000 ∧
      restingFlight.position.e2 < st1.position.e2 ∧
      st1.power = restingFlight.power ∧ st1.runApp = restingFlight.runApp :=
  ⟨getPoint_flat _ _ _,
    landed_tick testTrig (flatLandscape ⟨10, 20, 30, 1 / 2⟩) 0 540 restingFlight
      ⟨10, 20, 30, 1 / 2⟩ (getPoint_flat _ _ _)
      (by norm_num [restingFlight]) (by norm_num [restingFlight, Point.height])
      (by simp [restingFlight, V4sf.zero])⟩

/-- The landed state is not a fixed point of the tick (against claim C6 as
stated): at rest on the flat heightfield of height `1 / 2`, with the altitude
equal to the terrain height, no key pressed and full power, one tick moves the
altitude from `0.5` to `0.5111`. -/
theorem landed_not_fixed :
    getPoint (flatLandscape ⟨10, 20, 30, 1 / 2⟩) restingFlight.position.e0
        restingFlight.position.e1 = some ⟨10, 20, 30, 1 / 2⟩ ∧
    restingFlight.position.e2 ≤ Point.height ⟨10, 20, 30, 1 / 2⟩ + 11 / 1000 ∧
    restingFlight.speed = V4sf.zero ∧
    engine.minPower ≤ restingFlight.power ∧ restingFlight.power ≤ engine.maxPower ∧
    ∃ st1, physicsTick testTrig (flatLandscape ⟨10, 20, 30, 1 / 2⟩) noKeys 0 540
        restingFlight = some st1 ∧
      st1.position.e2 = 5111 / 10000 ∧ st1.position ≠ restingFlight.position := by
  refine ⟨getPoint_flat _ _ _, by norm_num [restingFlight, Point.height], rfl,
    by norm_num [restingFlight, engine.minPower, engine.maxPower],
    by norm_num [restingFlight], ?_⟩
  obtain ⟨st1, h1, _, _, _, _, _, h7, _⟩ :=
    physicsTick_landing testTrig (flatLandscape ⟨10, 20, 30, 1 / 2⟩) noKeys 0 540
      restingFlight ⟨10, 20, 30, 1 / 2⟩ (getPoint_flat _ _ _)
      (by norm_num [restingFlight]) (by norm_num [restingFlight, Point.height])
  have h9 : st1.position.e2 = 5111 / 10000 := by
    rw [h7]
    norm_num [Point.height]
  refine ⟨st1, h1, h9, ?_⟩
  intro heq
  rw [heq] at h9
  norm_num [restingFlight] at h9

theorem physicsThread_snap (trig : Trig) (landscape : List Point)
    (hlen : (landscape.length : Int) = mapWidth * mapWidth)
    (inputs : List (Keys × ℚ × ℚ)) (st : Flight) :
    ∃ tr, physicsThread trig landscape inputs st = some (st :: tr) ∧
      List.Chain' (LandingSnap landscape) (st :: tr) := by
  induction inputs generalizing st with
  | nil => exact ⟨[], rfl, List.chain'_singleton _⟩
  | cons inp rest ih =>
    obtain ⟨keys, angle, horizon⟩ := inp
    by_cases hrun : st.runApp = true
    · obtain ⟨st1, h1⟩ := physicsTick_isSome trig landscape hlen keys angle horizon st
      obtain ⟨tr, h2, h3⟩ := ih st1
      refine ⟨st1 :: tr, ?_, List.chain'_cons.mpr
        ⟨physicsTick_snap trig landscape keys angle horizon st st1 h1, h3⟩⟩
      simp only [physicsThread, hrun, if_true, h1, h2]
    · refine ⟨[], ?_, List.chain'_singleton _⟩
      simp only [physicsThread, hrun]
      rfl

/-- Landing snap (claim C7, amended): every trajectory of ticks on a
heightfield of full length returns its states, and every tick of it that starts
below altitude `1` and at or below the terrain height under the helicopter plus
`0.011` (so the first such tick too), whatever the keys, power, angle and
horizon, ends with all three components of the speed zero, the horizontal
position unchanged and the altitude exactly the terrain height plus `0.0111`,
above the terrain. -/
theorem landing_snap (trig : Trig) (landscape : List Point)
    (hlen : (landscape.length : Int) = mapWidth * mapWidth)
    (inputs : List (Keys × ℚ × ℚ)) (st : Flight) :
    ∃ tr, physicsThread trig landscape inputs st = some tr ∧ tr.head? = some st ∧
      List.Chain' (LandingSnap landscape) tr := by
  obtain ⟨tr, h1, h2⟩ := physicsThread_snap trig landscape hlen inputs st
  exact ⟨st :: tr, h1, rfl, h2⟩

theorem landing_snap_witness :
    ((flatLandscape ⟨10, 20, 30, 1 / 2⟩).length : Int) = mapWidth * mapWidth ∧
    ∃ tr, physicsThread testTrig (flatLandscape ⟨10, 20, 30, 1 / 2⟩)
        [(noKeys, 0, 540), (noKeys, 0, 540)] sinkingFlight = some tr ∧
      tr.head? = some sinkingFlight ∧
      List.Chain' (LandingSnap (flatLandscape ⟨10, 20, 30, 1 / 2⟩)) tr :=
  ⟨flat_length _, landing_snap testTrig _ (flat_length _) _ sinkingFlight⟩

/-- The snap does not put the helicopter at the tested threshold (against
claim C7 as stated): sinking at `0.001` per tick, `0.005` above the flat
heightfield of height `0.5`, the tick starts at or below `0.5 + 0.011`, zeroes
the speed and sets the altitude to `0.5111`, not to `0.5 + 0.011`. -/
theorem snap_not_at_threshold :
    getPoint (flatLandscape ⟨10, 20, 30, 1 / 2⟩) sinkingFlight.position.e0
        sinkingFlight.position.e1 = some ⟨10, 20, 30, 1 / 2⟩ ∧
    sinkingFlight.position.e2 ≤ Point.height ⟨10, 20, 30, 1 / 2⟩ + 11 / 1000 ∧
    ∃ st1, physicsTick testTrig (flatLandscape ⟨10, 20, 30, 1 / 2⟩) noKeys 0 540
        sinkingFlight = some st1 ∧
      st1.speed.e0 = 0 ∧ st1.speed.e1 = 0 ∧ st1.speed.e2 = 0 ∧
      st1.position.e2 = 5111 / 10000 ∧
      st1.position.e2 ≠ Point.height ⟨10, 20, 30, 1 / 2⟩ + 11 / 1000 := by
  refine ⟨getPoint_flat _ _ _, by norm_num [sinkingFlight, Point.height], ?_⟩
  obtain ⟨st1, h1, h2, h3, h4, _, _, h7, _⟩ :=
    physicsTick_landing testTrig (flatLandscape ⟨10, 20, 30, 1 / 2⟩) noKeys 0 540
      sinkingFlight ⟨10, 20, 30, 1 / 2⟩ (getPoint_flat _ _ _)
      (by norm_num [sinkingFlight]) (by norm_num [sinkingFlight, Point.height])
  have h9 : st1.position.e2 = 5111 / 10000 := by
    rw [h7]
    norm_num [Point.height]
  refine ⟨st1, h1, h2, h3, h4, h9, ?_⟩
  rw [h9]
  norm_num [Point.height]

/-- The landing test is only made below altitude `1`: at rest at altitude `1` on
the flat heightfield of height `1`, at the lowest power, the tick does not snap;
the helicopter ends the tick with a downward speed, below the terrain. -/
theorem landing_gate_example :
    summitFlight.position.e2 ≤ Point.height ⟨10, 20, 30, 1⟩ + 11 / 1000 ∧
    ∃ st1, physicsTick testTrig (flatLandscape ⟨10, 20, 30, 1⟩) noKeys 0 540
        summitFlight = some st1 ∧
      st1.speed.e2 < 0 ∧ st1.position.e2 < Point.height ⟨10, 20, 30, 1⟩ := by
  refine ⟨by norm_num [summitFlight, Point.height], ?_⟩
  unfold physicsTick
  simp only
  rw [if_neg (by norm_num [summitFlight]), if_neg (by norm_num [summitFlight])]
  refine ⟨_, rfl, ?_, ?_⟩
  · norm_num [summitFlight, acceleratedSpeed, rotorAcceleration, sidePitch, enginePower,
      noKeys, testTrig, gravity, V4sf.add, V4sf.mul, V4sf.rsub, V4sf.scale, V4sf.zero,
      engine.minPower, engine.maxPower, camera.straightView, window.height]
  · norm_num [summitFlight, acceleratedSpeed, rotorAcceleration, sidePitch, enginePower,
      noKeys, testTrig, gravity, V4sf.add, V4sf.mul, V4sf.rsub, V4sf.scale, V4sf.zero,
      engine.minPower, engine.maxPower, camera.straightView, window.height, Point.height]
/-! ## The rounding error of the bilinear blend -/

/-- The binary32 numbers around `4.5` are `2 ^ (-21)` apart. -/
theorem rnd_near_nine_halves (x : ℚ) (h : |x - 9 / 2| < 1 / 4194304) : rnd x = 9 / 2 := by
  rw [abs_lt] at h
  have hpos : 0 < x := by linarith [h.1]
  have hl : ilog2 x = 2 := by
    apply ilog2_eq
    · rw [abs_of_pos hpos]
      norm_num
      linarith [h.1]
    · rw [abs_of_pos hpos]
      norm_num
      linarith [h.2]
  have he : ulpExponent x = -21 := by
    unfold ulpExponent
    rw [hl]
    rfl
  unfold rnd
  rw [he]
  have hp : (2 : ℚ) ^ (-21 : Int) = 1 / 2097152 := by
    rw [zpow_neg]
    norm_num
  rw [hp]
  have hr : roundHalfEven (x / (1 / 2097152)) = 9437184 := by
    apply roundHalfEven_eq
    · push_cast
      linarith [h.1]
    · push_cast
      linarith [h.2]
  rw [hr]
  norm_num
/-! ## The early-out of the column step -/

theorem countAt_update_ge (pc : Nat → Loc) (t : Nat) (l1 loc : Loc) (n : Nat) (h : n ≤ t) :
    countAt (Function.update pc t l1) loc n = countAt pc loc n := by
  induction n with
  | zero => rfl
  | succ n ih =>
    have hne : n ≠ t := by omega
    simp only [countAt, ih (by omega), Function.update_noteq hne]

/-- Moving one participant takes one from the count of its old place and adds
one to the count of its new place. -/
theorem countAt_update (pc : Nat → Loc) (t : Nat) (l1 loc : Loc) (n : Nat) (h : t < n) :
    countAt (Function.update pc t l1) loc n + (if pc t = loc then 1 else 0) =
      countAt pc loc n + (if l1 = loc then 1 else 0) := by
  induction n with
  | zero => omega
  | succ n ih =>
    by_cases htn : t = n
    · subst htn
      simp only [countAt, countAt_update_ge pc t l1 loc t (le_refl _), Function.update_same]
      omega
    · have hne : n ≠ t := fun e => htn e.symm
      have := ih (by omega)
      simp only [countAt, Function.update_noteq hne]
      omega

theorem countAt_pos (pc : Nat → Loc) (t : Nat) (loc : Loc) (n : Nat) (h : t < n)
    (hl : pc t = loc) : 1 ≤ countAt pc loc n := by
  induction n with
  | zero => omega
  | succ n ih =>
    by_cases htn : t = n
    · subst htn
      simp only [countAt, hl, if_true]
      omega
    · have := ih (by omega)
      simp only [countAt]
      omega

theorem countAt_eq_zero (pc : Nat → Loc) (loc : Loc) (n : Nat)
    (h : ∀ t, t < n → pc t ≠ loc) : countAt pc loc n = 0 := by
  induction n with
  | zero => rfl
  | succ n ih =>
    simp only [countAt, ih (fun t ht => h t (by omega)), if_neg (h n (by omega))]

theorem countAt_const (l loc : Loc) (n : Nat) :
    countAt (fun _ => l) loc n = if l = loc then n else 0 := by
  induction n with
  | zero => simp [countAt]
  | succ n ih =>
    simp only [countAt, ih]
    split <;> simp

@[simp] theorem setPc_pc (s : World) (t : Nat) (l : Loc) :
    (s.setPc t l).pc = Function.update s.pc t l := rfl

@[simp] theorem setPc_barrier (s : World) (t : Nat) (l : Loc) (k : Nat) :
    (s.setPc t l).barrier k = s.barrier k := rfl

@[simp] theorem setBarrier_pc (s : World) (k : Nat) (b : SpinlockBarrier) :
    (s.setBarrier k b).pc = s.pc := by
  unfold World.setBarrier
  split <;> rfl

@[simp] theorem setBarrier_same (s : World) (k : Nat) (b : SpinlockBarrier) :
    (s.setBarrier k b).barrier k = b := by
  unfold World.setBarrier World.barrier
  split <;> rename_i h <;> simp [h]

@[simp] theorem setBarrier_succ (s : World) (k : Nat) (b : SpinlockBarrier) :
    (s.setBarrier k b).barrier (k + 1) = s.barrier (k + 1) := by
  unfold World.setBarrier World.barrier
  have h1 : k % 2 = 0 ∨ k % 2 = 1 := by omega
  rcases h1 with h | h
  · have h2 : (k + 1) % 2 ≠ 0 := by omega
    simp [h, h2]
  · have h2 : (k + 1) % 2 = 0 := by omega
    have h3 : k % 2 ≠ 0 := by omega
    simp [h3, h2]

@[simp] theorem setBarrier_pred (s : World) (k : Nat) (b : SpinlockBarrier) :
    (s.setBarrier (k + 1) b).barrier k = s.barrier k := by
  unfold World.setBarrier World.barrier
  have h1 : k % 2 = 0 ∨ k % 2 = 1 := by omega
  rcases h1 with h | h
  · have h2 : (k + 1) % 2 ≠ 0 := by omega
    simp [h, h2]
  · have h2 : (k + 1) % 2 = 0 := by omega
    have h3 : k % 2 ≠ 0 := by omega
    simp [h3, h2]

/-- The barrier two calls later is the same barrier. -/
theorem barrier_add_two (s : World) (k : Nat) : s.barrier (k + 2) = s.barrier k := by
  unfold World.barrier
  have : (k + 2) % 2 = k % 2 := by omega
  rw [this]

theorem near_update (s : World) (t : Nat) (l1 : Loc) (m : Nat)
    (hnear : ∀ u, u < participants → (s.pc u).waits = m ∨ (s.pc u).waits = m + 1)
    (hl : l1.waits = m ∨ l1.waits = m + 1) :
    ∀ u, u < participants → (Function.update s.pc t l1 u).waits = m ∨
      (Function.update s.pc t l1 u).waits = m + 1 := by
  intro u hu
  by_cases hut : u = t
  · subst hut
    rw [Function.update_same]
    exact hl
  · rw [Function.update_noteq hut]
    exact hnear u hu

/-- The counts after a move of participant `t` to `l1`. -/
theorem census_move (s : World) (t : Nat) (ht : t < participants) (l1 : Loc) (loc : Loc) :
    countAt (Function.update s.pc t l1) loc participants + (if s.pc t = loc then 1 else 0) =
      countAt s.pc loc participants + (if l1 = loc then 1 else 0) :=
  countAt_update s.pc t l1 loc participants ht

/-- A participant that is behind does `++spinning`. -/
theorem inv_behind_incSpinning (s : World) (m t : Nat) (ht : t < participants) (h : BarrierInv s m)
    (hl : s.pc t = ⟨m, Stage.incSpinning⟩) :
    BarrierInv (step s t) m := by
  have hstep : step s t = (s.setBarrier m { s.barrier m with
      spinning := (s.barrier m).spinning + 1 }).setPc t ⟨m, Stage.incPrisoners⟩ := by
    unfold step
    simp only [hl]
  rw [hstep]
  have c := census_move s t ht ⟨m, Stage.incPrisoners⟩
  have c1 := c ⟨m, Stage.incSpinning⟩
  have c2 := c ⟨m, Stage.incPrisoners⟩
  have c3 := c ⟨m, Stage.spin⟩
  have c4 := c ⟨m, Stage.decSpinning⟩
  have c5 := c ⟨m, Stage.reset⟩
  have c6 := c ⟨m + 1, Stage.incSpinning⟩
  have c7 := c ⟨m + 1, Stage.incPrisoners⟩
  have c8 := c ⟨m + 1, Stage.spin⟩
  have c9 := c ⟨m + 1, Stage.decSpinning⟩
  have c10 := c ⟨m + 1, Stage.reset⟩
  simp [hl] at c1 c2 c3 c4 c5 c6 c7 c8 c9 c10
  obtain ⟨h1, h2, h3, h4, h5, h6, h7, h8, h9, h10⟩ := h
  constructor
  · simp only [setPc_pc, setBarrier_pc]
    exact near_update s t _ m h1 (Or.inl rfl)
  all_goals simp only [setPc_pc, setBarrier_pc, setPc_barrier, setBarrier_same,
    setBarrier_succ, setBarrier_pred]
  all_goals omega

/-- A participant that is behind does `++prisoners`. -/
theorem inv_behind_incPrisoners (s : World) (m t : Nat) (ht : t < participants) (h : BarrierInv s m)
    (hl : s.pc t = ⟨m, Stage.incPrisoners⟩) :
    BarrierInv (step s t) m := by
  have hstep : step s t = (s.setBarrier m { s.barrier m with
      prisoners := (s.barrier m).prisoners + 1 }).setPc t ⟨m, Stage.spin⟩ := by
    unfold step
    simp only [hl]
  rw [hstep]
  have c := census_move s t ht ⟨m, Stage.spin⟩
  have c1 := c ⟨m, Stage.incSpinning⟩
  have c2 := c ⟨m, Stage.incPrisoners⟩
  have c3 := c ⟨m, Stage.spin⟩
  have c4 := c ⟨m, Stage.decSpinning⟩
  have c5 := c ⟨m, Stage.reset⟩
  have c6 := c ⟨m + 1, Stage.incSpinning⟩
  have c7 := c ⟨m + 1, Stage.incPrisoners⟩
  have c8 := c ⟨m + 1, Stage.spin⟩
  have c9 := c ⟨m + 1, Stage.decSpinning⟩
  have c10 := c ⟨m + 1, Stage.reset⟩
  simp [hl] at c1 c2 c3 c4 c5 c6 c7 c8 c9 c10
  obtain ⟨h1, h2, h3, h4, h5, h6, h7, h8, h9, h10⟩ := h
  constructor
  · simp only [setPc_pc, setBarrier_pc]
    exact near_update s t _ m h1 (Or.inl rfl)
  all_goals simp only [setPc_pc, setBarrier_pc, setPc_barrier, setBarrier_same,
    setBarrier_succ, setBarrier_pred]
  all_goals omega

/-- A participant that is behind leaves the loop. -/
theorem inv_behind_spin_exit (s : World) (m t : Nat) (ht : t < participants) (h : BarrierInv s m)
    (hl : s.pc t = ⟨m, Stage.spin⟩)
    (hc : ¬ (s.barrier m).prisoners < (participants : Int)) :
    BarrierInv (step s t) m := by
  have hstep : step s t = s.setPc t ⟨m, Stage.decSpinning⟩ := by
    unfold step
    simp only [hl]
    rw [if_neg hc]
  rw [hstep]
  have c := census_move s t ht ⟨m, Stage.decSpinning⟩
  have c1 := c ⟨m, Stage.incSpinning⟩
  have c2 := c ⟨m, Stage.incPrisoners⟩
  have c3 := c ⟨m, Stage.spin⟩
  have c4 := c ⟨m, Stage.decSpinning⟩
  have c5 := c ⟨m, Stage.reset⟩
  have c6 := c ⟨m + 1, Stage.incSpinning⟩
  have c7 := c ⟨m + 1, Stage.incPrisoners⟩
  have c8 := c ⟨m + 1, Stage.spin⟩
  have c9 := c ⟨m + 1, Stage.decSpinning⟩
  have c10 := c ⟨m + 1, Stage.reset⟩
  simp [hl] at c1 c2 c3 c4 c5 c6 c7 c8 c9 c10
  obtain ⟨h1, h2, h3, h4, h5, h6, h7, h8, h9, h10⟩ := h
  constructor
  · simp only [setPc_pc, setBarrier_pc]
    exact near_update s t _ m h1 (Or.inl rfl)
  all_goals simp only [setPc_pc, setBarrier_pc, setPc_barrier, setBarrier_same,
    setBarrier_succ, setBarrier_pred]
  all_goals omega

/-- The last participant does `--spinning` and finds `0`. -/
theorem inv_behind_dec_last (s : World) (m t : Nat) (ht : t < participants) (h : BarrierInv s m)
    (hl : s.pc t = ⟨m, Stage.decSpinning⟩)
    (hc : (s.barrier m).spinning - 1 = 0) :
    BarrierInv (step s t) m := by
  have hstep : step s t = (s.setBarrier m { s.barrier m with
      spinning := (s.barrier m).spinning - 1 }).setPc t ⟨m, Stage.reset⟩ := by
    unfold step
    simp only [hl]
    rw [if_pos hc]
  rw [hstep]
  have c := census_move s t ht ⟨m, Stage.reset⟩
  have c1 := c ⟨m, Stage.incSpinning⟩
  have c2 := c ⟨m, Stage.incPrisoners⟩
  have c3 := c ⟨m, Stage.spin⟩
  have c4 := c ⟨m, Stage.decSpinning⟩
  have c5 := c ⟨m, Stage.reset⟩
  have c6 := c ⟨m + 1, Stage.incSpinning⟩
  have c7 := c ⟨m + 1, Stage.incPrisoners⟩
  have c8 := c ⟨m + 1, Stage.spin⟩
  have c9 := c ⟨m + 1, Stage.decSpinning⟩
  have c10 := c ⟨m + 1, Stage.reset⟩
  simp [hl] at c1 c2 c3 c4 c5 c6 c7 c8 c9 c10
  obtain ⟨h1, h2, h3, h4, h5, h6, h7, h8, h9, h10⟩ := h
  constructor
  · simp only [setPc_pc, setBarrier_pc]
    exact near_update s t _ m h1 (Or.inl rfl)
  all_goals simp only [setPc_pc, setBarrier_pc, setPc_barrier, setBarrier_same,
    setBarrier_succ, setBarrier_pred]
  all_goals omega

/-- A participant that is not the last does `--spinning` and returns. -/
theorem inv_behind_dec_more (s : World) (m t : Nat) (ht : t < participants) (h : BarrierInv s m)
    (hl : s.pc t = ⟨m, Stage.decSpinning⟩)
    (hc : ¬ (s.barrier m).spinning - 1 = 0) :
    BarrierInv (step s t) m := by
  have hstep : step s t = (s.setBarrier m { s.barrier m with
      spinning := (s.barrier m).spinning - 1 }).setPc t ⟨m + 1, Stage.incSpinning⟩ := by
    unfold step
    simp only [hl]
    rw [if_neg hc]
  rw [hstep]
  have c := census_move s t ht ⟨m + 1, Stage.incSpinning⟩
  have c1 := c ⟨m, Stage.incSpinning⟩
  have c2 := c ⟨m, Stage.incPrisoners⟩
  have c3 := c ⟨m, Stage.spin⟩
  have c4 := c ⟨m, Stage.decSpinning⟩
  have c5 := c ⟨m, Stage.reset⟩
  have c6 := c ⟨m + 1, Stage.incSpinning⟩
  have c7 := c ⟨m + 1, Stage.incPrisoners⟩
  have c8 := c ⟨m + 1, Stage.spin⟩
  have c9 := c ⟨m + 1, Stage.decSpinning⟩
  have c10 := c ⟨m + 1, Stage.reset⟩
  simp [hl] at c1 c2 c3 c4 c5 c6 c7 c8 c9 c10
  obtain ⟨h1, h2, h3, h4, h5, h6, h7, h8, h9, h10⟩ := h
  constructor
  · simp only [setPc_pc, setBarrier_pc]
    exact near_update s t _ m h1 (Or.inr rfl)
  all_goals simp only [setPc_pc, setBarrier_pc, setPc_barrier, setBarrier_same,
    setBarrier_succ, setBarrier_pred]
  all_goals omega

/-- A participant that is ahead does `++spinning`. -/
theorem inv_ahead_incSpinning (s : World) (m t : Nat) (ht : t < participants) (h : BarrierInv s m)
    (hl : s.pc t = ⟨m + 1, Stage.incSpinning⟩) :
    BarrierInv (step s t) m := by
  have hstep : step s t = (s.setBarrier (m + 1) { s.barrier (m + 1) with
      spinning := (s.barrier (m + 1)).spinning + 1 }).setPc t ⟨m + 1, Stage.incPrisoners⟩ := by
    unfold step
    simp only [hl]
  rw [hstep]
  have c := census_move s t ht ⟨m + 1, Stage.incPrisoners⟩
  have c1 := c ⟨m, Stage.incSpinning⟩
  have c2 := c ⟨m, Stage.incPrisoners⟩
  have c3 := c ⟨m, Stage.spin⟩
  have c4 := c ⟨m, Stage.decSpinning⟩
  have c5 := c ⟨m, Stage.reset⟩
  have c6 := c ⟨m + 1, Stage.incSpinning⟩
  have c7 := c ⟨m + 1, Stage.incPrisoners⟩
  have c8 := c ⟨m + 1, Stage.spin⟩
  have c9 := c ⟨m + 1, Stage.decSpinning⟩
  have c10 := c ⟨m + 1, Stage.reset⟩
  simp [hl] at c1 c2 c3 c4 c5 c6 c7 c8 c9 c10
  obtain ⟨h1, h2, h3, h4, h5, h6, h7, h8, h9, h10⟩ := h
  constructor
  · simp only [setPc_pc, setBarrier_pc]
    exact near_update s t _ m h1 (Or.inr rfl)
  all_goals simp only [setPc_pc, setBarrier_pc, setPc_barrier, setBarrier_same,
    setBarrier_succ, setBarrier_pred]
  all_goals omega

/-- A participant that is ahead does `++prisoners`. -/
theorem inv_ahead_incPrisoners (s : World) (m t : Nat) (ht : t < participants) (h : BarrierInv s m)
    (hl : s.pc t = ⟨m + 1, Stage.incPrisoners⟩) :
    BarrierInv (step s t) m := by
  have hstep : step s t = (s.setBarrier (m + 1) { s.barrier (m + 1) with
      prisoners := (s.barrier (m + 1)).prisoners + 1 }).setPc t ⟨m + 1, Stage.spin⟩ := by
    unfold step
    simp only [hl]
  rw [hstep]
  have c := census_move s t ht ⟨m + 1, Stage.spin⟩
  have c1 := c ⟨m, Stage.incSpinning⟩
  have c2 := c ⟨m, Stage.incPrisoners⟩
  have c3 := c ⟨m, Stage.spin⟩
  have c4 := c ⟨m, Stage.decSpinning⟩
  have c5 := c ⟨m, Stage.reset⟩
  have c6 := c ⟨m + 1, Stage.incSpinning⟩
  have c7 := c ⟨m + 1, Stage.incPrisoners⟩
  have c8 := c ⟨m + 1, Stage.spin⟩
  have c9 := c ⟨m + 1, Stage.decSpinning⟩
  have c10 := c ⟨m + 1, Stage.reset⟩
  simp [hl] at c1 c2 c3 c4 c5 c6 c7 c8 c9 c10
  obtain ⟨h1, h2, h3, h4, h5, h6, h7, h8, h9, h10⟩ := h
  constructor
  · simp only [setPc_pc, setBarrier_pc]
    exact near_update s t _ m h1 (Or.inr rfl)
  all_goals simp only [setPc_pc, setBarrier_pc, setPc_barrier, setBarrier_same,
    setBarrier_succ, setBarrier_pred]
  all_goals omega

/-- The last participant does `prisoners = 0` and returns: everybody is in the
next call. -/
theorem inv_behind_reset (s : World) (m t : Nat) (ht : t < participants) (h : BarrierInv s m)
    (hl : s.pc t = ⟨m, Stage.reset⟩) :
    BarrierInv (step s t) (m + 1) := by
  have hstep : step s t = (s.setBarrier m { s.barrier m with prisoners := 0 }).setPc t
      ⟨m + 1, Stage.incSpinning⟩ := by
    unfold step
    simp only [hl]
  rw [hstep]
  have hpos := countAt_pos s.pc t _ participants ht hl
  have z : ∀ st, countAt s.pc ⟨m + 1 + 1, st⟩ participants = 0 := by
    intro st
    apply countAt_eq_zero
    intro u hu hc
    have := h.near u hu
    rw [hc] at this
    simp only at this
    omega
  have z1 := z Stage.incSpinning
  have z2 := z Stage.incPrisoners
  have z3 := z Stage.spin
  have z4 := z Stage.decSpinning
  have z5 := z Stage.reset
  have c := census_move s t ht ⟨m + 1, Stage.incSpinning⟩
  have c1 := c ⟨m, Stage.incSpinning⟩
  have c2 := c ⟨m, Stage.incPrisoners⟩
  have c3 := c ⟨m, Stage.spin⟩
  have c4 := c ⟨m, Stage.decSpinning⟩
  have c5 := c ⟨m, Stage.reset⟩
  have c6 := c ⟨m + 1, Stage.incSpinning⟩
  have c7 := c ⟨m + 1, Stage.incPrisoners⟩
  have c8 := c ⟨m + 1, Stage.spin⟩
  have c9 := c ⟨m + 1, Stage.decSpinning⟩
  have c10 := c ⟨m + 1, Stage.reset⟩
  have c11 := c ⟨m + 1 + 1, Stage.incSpinning⟩
  have c12 := c ⟨m + 1 + 1, Stage.incPrisoners⟩
  have c13 := c ⟨m + 1 + 1, Stage.spin⟩
  have c14 := c ⟨m + 1 + 1, Stage.decSpinning⟩
  have c15 := c ⟨m + 1 + 1, Stage.reset⟩
  simp [hl] at c1 c2 c3 c4 c5 c6 c7 c8 c9 c10 c11 c12 c13 c14 c15
  obtain ⟨h1, h2, h3, h4, h5, h6, h7, h8, h9, h10⟩ := h
  have hnear : ∀ u, u < participants → (Function.update s.pc t ⟨m + 1, Stage.incSpinning⟩ u).waits
      = m + 1 := by
    intro u hu
    by_cases hut : u = t
    · subst hut
      rw [Function.update_same]
    · rw [Function.update_noteq hut]
      rcases h1 u hu with hw | hw
      · -- a second participant behind: there is none
        exfalso
        have hother : ∀ st, s.pc u = ⟨m, st⟩ → False := by
          intro st hst
          have c0 := countAt_update s.pc t ⟨m + 1, Stage.incSpinning⟩ ⟨m, st⟩ participants ht
          have hp := countAt_pos (Function.update s.pc t ⟨m + 1, Stage.incSpinning⟩) u ⟨m, st⟩
            participants hu (by rw [Function.update_noteq hut]; exact hst)
          cases st <;> simp [hl] at c0 <;> omega
        exact hother (s.pc u).stage (by rw [← hw])
      · exact hw
  have hb2 : ∀ b, ((s.setBarrier m b).setPc t ⟨m + 1, Stage.incSpinning⟩).barrier (m + 1 + 1)
      = b := by
    intro b
    rw [barrier_add_two, setPc_barrier, setBarrier_same]
  constructor
  · simp only [setPc_pc, setBarrier_pc]
    intro u hu
    exact Or.inl (hnear u hu)
  all_goals simp only [hb2, setPc_pc, setBarrier_pc, setPc_barrier, setBarrier_same,
    setBarrier_succ, setBarrier_pred]
  all_goals omega

/-- A participant that is ahead cannot leave the loop: somebody is behind. -/
theorem inv_ahead_spin (s : World) (m t : Nat) (h : BarrierInv s m)
    (hl : s.pc t = ⟨m + 1, Stage.spin⟩) : step s t = s := by
  unfold step
  simp only [hl]
  rw [if_pos]
  have := h.total
  have := h.behind
  have := h.prisonersNext
  omega

/-- One atomic operation of a participant keeps the invariant, for the same
call number or the next. -/
theorem step_inv (s : World) (m t : Nat) (ht : t < participants) (h : BarrierInv s m) :
    BarrierInv (step s t) m ∨ BarrierInv (step s t) (m + 1) := by
  have hloc : s.pc t = ⟨(s.pc t).waits, (s.pc t).stage⟩ := rfl
  rcases h.near t ht with hw | hw
  · rw [hw] at hloc
    cases hst : (s.pc t).stage <;> rw [hst] at hloc
    · exact Or.inl (inv_behind_incSpinning s m t ht h hloc)
    · exact Or.inl (inv_behind_incPrisoners s m t ht h hloc)
    · by_cases hc : (s.barrier m).prisoners < (participants : Int)
      · left
        have : step s t = s := by
          unfold step
          simp only [hloc]
          rw [if_pos hc]
        rw [this]
        exact h
      · exact Or.inl (inv_behind_spin_exit s m t ht h hloc hc)
    · by_cases hc : (s.barrier m).spinning - 1 = 0
      · exact Or.inl (inv_behind_dec_last s m t ht h hloc hc)
      · exact Or.inl (inv_behind_dec_more s m t ht h hloc hc)
    · exact Or.inr (inv_behind_reset s m t ht h hloc)
  · rw [hw] at hloc
    cases hst : (s.pc t).stage <;> rw [hst] at hloc
    · exact Or.inl (inv_ahead_incSpinning s m t ht h hloc)
    · exact Or.inl (inv_ahead_incPrisoners s m t ht h hloc)
    · left
      rw [inv_ahead_spin s m t h hloc]
      exact h
    · exfalso
      have := countAt_pos s.pc t _ participants ht hloc
      have := h.ahead.1
      omega
    · exfalso
      have := countAt_pos s.pc t _ participants ht hloc
      have := h.ahead.2
      omega

theorem init_inv : BarrierInv World.init 0 := by
  have hc : ∀ loc, countAt World.init.pc loc participants =
      if (⟨0, Stage.incSpinning⟩ : Loc) = loc then participants else 0 := by
    intro loc
    exact countAt_const _ loc participants
  have hp : participants = 5 := rfl
  constructor
  · intro t _
    exact Or.inl rfl
  all_goals simp only [hc]
  all_goals simp [hp, World.init, World.barrier]

/-- Every world reached by an interleaving satisfies the invariant. -/
theorem run_inv (sched : List Nat) (hs : ∀ t ∈ sched, t < participants) :
    ∀ (s : World) (m : Nat), BarrierInv s m → ∃ m1, BarrierInv (run sched s) m1 := by
  induction sched with
  | nil =>
    intro s m h
    exact ⟨m, h⟩
  | cons t rest ih =>
    intro s m h
    have ht := hs t (List.mem_cons_self _ _)
    have hrest : ∀ u ∈ rest, u < participants := fun u hu => hs u (List.mem_cons_of_mem _ hu)
    show ∃ m1, BarrierInv (run rest (step s t)) m1
    rcases step_inv s m t ht h with h1 | h1
    · exact ih hrest _ m h1
    · exact ih hrest _ (m + 1) h1

/-- A participant in call `m` that is at neither of two stages is at one of the
other three. -/
theorem stage_cases (l : Loc) :
    l.stage = Stage.incSpinning ∨ l.stage = Stage.incPrisoners ∨ l.stage = Stage.spin ∨
      l.stage = Stage.decSpinning ∨ l.stage = Stage.reset := by
  cases l.stage <;> simp

theorem loc_eta (l : Loc) (k : Nat) (st : Stage) (h1 : l.waits = k) (h2 : l.stage = st) :
    l = ⟨k, st⟩ := by
  cases l
  simp only at h1 h2
  rw [h1, h2]

/-- When the places `incSpinning` and `incPrisoners` of call `m` are empty,
everybody has arrived in call `m`. -/
theorem arrived_of_empty (s : World) (m : Nat) (h : BarrierInv s m)
    (h1 : countAt s.pc ⟨m, Stage.incSpinning⟩ participants = 0)
    (h2 : countAt s.pc ⟨m, Stage.incPrisoners⟩ participants = 0) :
    ∀ u, u < participants → (s.pc u).arrived m := by
  intro u hu
  rcases h.near u hu with hw | hw
  · right
    refine ⟨hw, ?_⟩
    rcases stage_cases (s.pc u) with hs | hs | hs | hs | hs
    · have := countAt_pos s.pc u _ participants hu (loc_eta _ _ _ hw hs)
      omega
    · have := countAt_pos s.pc u _ participants hu (loc_eta _ _ _ hw hs)
      omega
    · exact Or.inl hs
    · exact Or.inr (Or.inl hs)
    · exact Or.inr (Or.inr hs)
  · left
    omega

/-- Nobody has left the loop of a call before everybody has done `++prisoners`
in that call. -/
theorem released_arrived (s : World) (m : Nat) (h : BarrierInv s m) (t u k : Nat)
    (ht : t < participants) (hu : u < participants) (hrel : (s.pc t).released k) :
    (s.pc u).arrived k := by
  have hwt := h.near t ht
  have hwu := h.near u hu
  have hk : k < m ∨ k = m ∨ m < k := by omega
  rcases hk with hk | hk | hk
  · left
    omega
  · subst hk
    have hprem : 1 ≤ countAt s.pc ⟨k, Stage.decSpinning⟩ participants
        + countAt s.pc ⟨k, Stage.reset⟩ participants
        + countAt s.pc ⟨k + 1, Stage.incSpinning⟩ participants
        + countAt s.pc ⟨k + 1, Stage.incPrisoners⟩ participants
        + countAt s.pc ⟨k + 1, Stage.spin⟩ participants := by
      rcases hrel with hlt | ⟨hw, hs | hs⟩
      · have hw : (s.pc t).waits = k + 1 := by omega
        rcases stage_cases (s.pc t) with hs | hs | hs | hs | hs
        · have := countAt_pos s.pc t _ participants ht (loc_eta _ _ _ hw hs)
          omega
        · have := countAt_pos s.pc t _ participants ht (loc_eta _ _ _ hw hs)
          omega
        · have := countAt_pos s.pc t _ participants ht (loc_eta _ _ _ hw hs)
          omega
        · have := countAt_pos s.pc t _ participants ht (loc_eta _ _ _ hw hs)
          have := h.ahead.1
          omega
        · have := countAt_pos s.pc t _ participants ht (loc_eta _ _ _ hw hs)
          have := h.ahead.2
          omega
      · have := countAt_pos s.pc t _ participants ht (loc_eta _ _ _ hw hs)
        omega
      · have := countAt_pos s.pc t _ participants ht (loc_eta _ _ _ hw hs)
        omega
    have hr := h.released hprem
    exact arrived_of_empty s k h hr.1 hr.2.1 u hu
  · exfalso
    rcases hrel with hlt | ⟨hw, hs | hs⟩
    · omega
    · have hw1 : (s.pc t).waits = m + 1 := by omega
      have := countAt_pos s.pc t _ participants ht (loc_eta _ _ _ hw1 hs)
      have := h.ahead.1
      omega
    · have hw1 : (s.pc t).waits = m + 1 := by omega
      have := countAt_pos s.pc t _ participants ht (loc_eta _ _ _ hw1 hs)
      have := h.ahead.2
      omega

/-- When everybody has done `++prisoners` in call `k`, the loop condition of
call `k` is false. -/
theorem all_arrived_exit (s : World) (m : Nat) (h : BarrierInv s m) (t k : Nat)
    (ht : t < participants) (hl : s.pc t = ⟨k, Stage.spin⟩)
    (hall : ∀ u, u < participants → (s.pc u).arrived k) :
    ¬ (s.barrier k).prisoners < (participants : Int) := by
  have hwt := h.near t ht
  rw [hl] at hwt
  simp only at hwt
  have hzero : ∀ st, countAt s.pc ⟨m, st⟩ participants = 0 ∨ k = m := by
    intro st
    by_cases hk : k = m
    · exact Or.inr hk
    · left
      apply countAt_eq_zero
      intro u hu hc
      have := hall u hu
      unfold Loc.arrived at this
      rw [hc] at this
      simp only at this
      omega
  by_cases hk : k = m
  · subst hk
    have e1 : countAt s.pc ⟨k, Stage.incSpinning⟩ participants = 0 := by
      apply countAt_eq_zero
      intro u hu hc
      have := hall u hu
      unfold Loc.arrived at this
      rw [hc] at this
      simp at this
    have e2 : countAt s.pc ⟨k, Stage.incPrisoners⟩ participants = 0 := by
      apply countAt_eq_zero
      intro u hu hc
      have := hall u hu
      unfold Loc.arrived at this
      rw [hc] at this
      simp at this
    have h2 := h.total
    have h4 := h.ahead
    have h8 := h.gathering
    have h9 := h.released
    omega
  · exfalso
    have z1 := (hzero Stage.incSpinning).resolve_right hk
    have z2 := (hzero Stage.incPrisoners).resolve_right hk
    have z3 := (hzero Stage.spin).resolve_right hk
    have z4 := (hzero Stage.decSpinning).resolve_right hk
    have z5 := (hzero Stage.reset).resolve_right hk
    have := h.behind
    omega

/-- When the loop condition of call `k` is false for a participant in the loop,
everybody has done `++prisoners` in call `k`. -/
theorem exit_all_arrived (s : World) (m : Nat) (h : BarrierInv s m) (t k : Nat)
    (ht : t < participants) (hl : s.pc t = ⟨k, Stage.spin⟩)
    (hc : ¬ (s.barrier k).prisoners < (participants : Int)) :
    ∀ u, u < participants → (s.pc u).arrived k := by
  have hwt := h.near t ht
  rw [hl] at hwt
  simp only at hwt
  rcases hwt with hk | hk
  · subst hk
    have h2 := h.total
    have h4 := h.ahead
    have h8 := h.gathering
    have h9 := h.released
    apply arrived_of_empty s k h <;> omega
  · exfalso
    subst hk
    have := h.total
    have := h.behind
    have := h.prisonersNext
    omega

theorem step_pc_spin_exit (s : World) (t k : Nat) (hl : s.pc t = ⟨k, Stage.spin⟩)
    (hc : ¬ (s.barrier k).prisoners < (participants : Int)) :
    step s t = s.setPc t ⟨k, Stage.decSpinning⟩ := by
  unfold step
  simp only [hl]
  rw [if_neg hc]

theorem step_pc_spin_stay (s : World) (t k : Nat) (hl : s.pc t = ⟨k, Stage.spin⟩)
    (hc : (s.barrier k).prisoners < (participants : Int)) : step s t = s := by
  unfold step
  simp only [hl]
  rw [if_pos hc]

/-- After `--spinning` the participant is at `prisoners = 0` or has returned. -/
theorem step_pc_dec (s : World) (t k : Nat) (hl : s.pc t = ⟨k, Stage.decSpinning⟩) :
    (step s t).pc t = ⟨k, Stage.reset⟩ ∨ (step s t).pc t = ⟨k + 1, Stage.incSpinning⟩ := by
  unfold step
  simp only [hl]
  split
  · left
    simp
  · right
    simp

theorem step_pc_reset (s : World) (t k : Nat) (hl : s.pc t = ⟨k, Stage.reset⟩) :
    (step s t).pc t = ⟨k + 1, Stage.incSpinning⟩ := by
  unfold step
  simp [hl]

theorem step_pc_incSpinning (s : World) (t k : Nat) (hl : s.pc t = ⟨k, Stage.incSpinning⟩) :
    (step s t).pc t = ⟨k, Stage.incPrisoners⟩ := by
  unfold step
  simp [hl]

/-- A participant that leaves the loop has returned from `wait()` after two
more of its own operations. -/
theorem returns_after_exit (s : World) (t k : Nat) (hl : s.pc t = ⟨k, Stage.spin⟩)
    (hc : ¬ (s.barrier k).prisoners < (participants : Int)) :
    ((run [t, t, t] s).pc t).waits = k + 1 := by
  have h1 : (step s t).pc t = ⟨k, Stage.decSpinning⟩ := by
    rw [step_pc_spin_exit s t k hl hc]
    simp
  show ((step (step (step s t) t) t).pc t).waits = k + 1
  rcases step_pc_dec (step s t) t k h1 with h2 | h2
  · rw [step_pc_reset _ t k h2]
  · rw [step_pc_incSpinning _ t (k + 1) h2]

/-- When everybody has returned from call `k` and nobody has returned from call
`k + 1`, the counters of the barrier of call `k` are zero. -/
theorem counters_zero (s : World) (m : Nat) (h : BarrierInv s m) (k : Nat)
    (hall : ∀ t, t < participants → (s.pc t).waits = k + 1) :
    m = k + 1 ∧ (s.barrier k).prisoners = 0 ∧ (s.barrier k).spinning = 0 := by
  have hm : m = k + 1 := by
    by_contra hne
    have z : ∀ st, countAt s.pc ⟨m, st⟩ participants = 0 := by
      intro st
      apply countAt_eq_zero
      intro u hu hc
      have := hall u hu
      rw [hc] at this
      simp only at this
      omega
    have := z Stage.incSpinning
    have := z Stage.incPrisoners
    have := z Stage.spin
    have := z Stage.decSpinning
    have := z Stage.reset
    have := h.behind
    omega
  subst hm
  have z : ∀ st, countAt s.pc ⟨k + 1 + 1, st⟩ participants = 0 := by
    intro st
    apply countAt_eq_zero
    intro u hu hc
    have := hall u hu
    rw [hc] at this
    simp only at this
    omega
  have z2 := z Stage.incPrisoners
  have z3 := z Stage.spin
  have h6 := h.spinningNext
  have h7 := h.prisonersNext
  rw [barrier_add_two] at h6 h7
  refine ⟨rfl, ?_, ?_⟩ <;> omega

/-- When everybody is about to start call `k + 1`, all four counters are
zero. -/
theorem between_cycles (s : World) (m : Nat) (h : BarrierInv s m) (k : Nat)
    (hall : ∀ t, t < participants → s.pc t = ⟨k + 1, Stage.incSpinning⟩) :
    (s.barrier k).prisoners = 0 ∧ (s.barrier k).spinning = 0 ∧
    (s.barrier (k + 1)).prisoners = 0 ∧ (s.barrier (k + 1)).spinning = 0 := by
  obtain ⟨hm, h1, h2⟩ := counters_zero s m h k (fun t ht => by rw [hall t ht])
  subst hm
  have z : ∀ loc : Loc, loc ≠ ⟨k + 1, Stage.incSpinning⟩ →
      countAt s.pc loc participants = 0 := by
    intro loc hne
    apply countAt_eq_zero
    intro u hu hc
    rw [hall u hu] at hc
    exact hne hc.symm
  have z2 := z ⟨k + 1, Stage.incPrisoners⟩ (by simp)
  have z3 := z ⟨k + 1, Stage.spin⟩ (by simp)
  have z4 := z ⟨k + 1, Stage.decSpinning⟩ (by simp)
  have z5 := z ⟨k + 1, Stage.reset⟩ (by simp)
  have z6 := z ⟨k + 1 + 1, Stage.incSpinning⟩ (by simp)
  have z7 := z ⟨k + 1 + 1, Stage.incPrisoners⟩ (by simp)
  have z8 := z ⟨k + 1 + 1, Stage.spin⟩ (by simp)
  have h5 := h.spinning
  have h8 := h.gathering
  refine ⟨h1, h2, ?_, ?_⟩ <;> omega

/-! ### Progress of the barrier -/

theorem progress_update_ge (pc : Nat → Loc) (t : Nat) (l1 : Loc) (n : Nat) (h : n ≤ t) :
    progress (Function.update pc t l1) n = progress pc n := by
  induction n with
  | zero => rfl
  | succ n ih =>
    have hne : n ≠ t := by omega
    simp only [progress, ih (by omega), Function.update_noteq hne]

theorem progress_update (pc : Nat → Loc) (t : Nat) (l1 : Loc) (n : Nat) (h : t < n) :
    progress (Function.update pc t l1) n + (pc t).position =
      progress pc n + l1.position := by
  induction n with
  | zero => omega
  | succ n ih =>
    by_cases htn : t = n
    · subst htn
      simp only [progress, progress_update_ge pc t l1 t (le_refl _), Function.update_same]
      omega
    · have hne : n ≠ t := fun e => htn e.symm
      have := ih (by omega)
      simp only [progress, Function.update_noteq hne]
      omega

theorem progress_le (pc : Nat → Loc) (b n : Nat) (h : ∀ t, t < n → (pc t).position ≤ b) :
    progress pc n ≤ n * b := by
  induction n with
  | zero => simp [progress]
  | succ n ih =>
    have h1 := ih (fun t ht => h t (by omega))
    have h2 := h n (by omega)
    simp only [progress]
    nlinarith

/-- An atomic operation either is one more round of the spin loop, which
changes nothing, or moves its participant to a larger position. -/
theorem step_moves (s : World) (t : Nat) :
    step s t = s ∨ ∃ l1 : Loc, (step s t).pc = Function.update s.pc t l1 ∧
      (s.pc t).position + 1 ≤ l1.position := by
  have hloc : s.pc t = ⟨(s.pc t).waits, (s.pc t).stage⟩ := rfl
  cases hst : (s.pc t).stage <;> rw [hst] at hloc
  · right
    refine ⟨⟨(s.pc t).waits, Stage.incPrisoners⟩, ?_, ?_⟩
    · unfold step
      simp [hst]
    · rw [hloc]
      simp [Loc.position, Stage.index]
  · right
    refine ⟨⟨(s.pc t).waits, Stage.spin⟩, ?_, ?_⟩
    · unfold step
      simp [hst]
    · rw [hloc]
      simp [Loc.position, Stage.index]
  · by_cases hc : (s.barrier (s.pc t).waits).prisoners < (participants : Int)
    · left
      unfold step
      simp [hst, hc]
    · right
      refine ⟨⟨(s.pc t).waits, Stage.decSpinning⟩, ?_, ?_⟩
      · unfold step
        simp [hst, hc]
      · rw [hloc]
        simp [Loc.position, Stage.index]
  · right
    by_cases hc : (s.barrier (s.pc t).waits).spinning - 1 = 0
    · refine ⟨⟨(s.pc t).waits, Stage.reset⟩, ?_, ?_⟩
      · unfold step
        simp [hst, hc]
      · rw [hloc]
        simp [Loc.position, Stage.index]
    · refine ⟨⟨(s.pc t).waits + 1, Stage.incSpinning⟩, ?_, ?_⟩
      · unfold step
        simp [hst, hc]
      · rw [hloc]
        simp [Loc.position, Stage.index]
        omega
  · right
    refine ⟨⟨(s.pc t).waits + 1, Stage.incSpinning⟩, ?_, ?_⟩
    · unfold step
      simp [hst]
    · rw [hloc]
      simp [Loc.position, Stage.index]
      omega

theorem step_progress (s : World) (t : Nat) (ht : t < participants) :
    progress s.pc participants ≤ progress (step s t).pc participants ∧
    ((step s t).pc t ≠ s.pc t →
      progress s.pc participants + 1 ≤ progress (step s t).pc participants) := by
  rcases step_moves s t with h | ⟨l1, h1, h2⟩
  · rw [h]
    exact ⟨le_refl _, fun hne => absurd rfl hne⟩
  · have := progress_update s.pc t l1 participants ht
    rw [h1]
    constructor
    · omega
    · intro _
      omega

theorem run_progress (sched : List Nat) (hs : ∀ t ∈ sched, t < participants) :
    ∀ s : World, progress s.pc participants ≤ progress (run sched s).pc participants := by
  induction sched with
  | nil =>
    intro s
    exact le_refl _
  | cons t rest ih =>
    intro s
    have h1 := (step_progress s t (hs t (List.mem_cons_self _ _))).1
    have h2 := ih (fun u hu => hs u (List.mem_cons_of_mem _ hu)) (step s t)
    show _ ≤ progress (run rest (step s t)).pc participants
    omega

theorem countAt_exists (pc : Nat → Loc) (loc : Loc) (n : Nat) (h : 1 ≤ countAt pc loc n) :
    ∃ t, t < n ∧ pc t = loc := by
  induction n with
  | zero => simp [countAt] at h
  | succ n ih =>
    simp only [countAt] at h
    by_cases hn : pc n = loc
    · exact ⟨n, by omega, hn⟩
    · rw [if_neg hn] at h
      obtain ⟨t, ht, hl⟩ := ih (by omega)
      exact ⟨t, by omega, hl⟩

theorem step_pc_moves_of_ne_spin (s : World) (t : Nat) (h : (s.pc t).stage ≠ Stage.spin) :
    (step s t).pc t ≠ s.pc t := by
  rcases step_moves s t with h1 | ⟨l1, h1, h2⟩
  · exfalso
    have hloc : s.pc t = ⟨(s.pc t).waits, (s.pc t).stage⟩ := rfl
    cases hst : (s.pc t).stage
    · have := step_pc_incSpinning s t _ (by rw [hloc, hst])
      rw [h1, hloc, hst] at this
      simp at this
    · have h3 : (step s t).pc t = ⟨(s.pc t).waits, Stage.spin⟩ := by
        unfold step
        simp [hst]
      rw [h1, hloc, hst] at h3
      simp at h3
    · exact h hst
    · rcases step_pc_dec s t _ (by rw [hloc, hst]) with h3 | h3 <;>
        rw [h1, hloc, hst] at h3 <;> simp at h3
    · have := step_pc_reset s t _ (by rw [hloc, hst])
      rw [h1, hloc, hst] at this
      simp at this
  · rw [h1, Function.update_same]
    intro heq
    rw [heq] at h2
    omega

/-- No deadlock: in a world that satisfies the invariant some participant's
next operation moves it. -/
theorem some_moves (s : World) (m : Nat) (h : BarrierInv s m) :
    ∃ t, t < participants ∧ (step s t).pc t ≠ s.pc t := by
  by_cases hall : ∀ t, t < participants → (s.pc t).stage = Stage.spin
  · -- everybody is in a loop: the participants behind are all in the loop of call `m`
    have z : ∀ w st, st ≠ Stage.spin → countAt s.pc ⟨w, st⟩ participants = 0 := by
      intro w st hne
      apply countAt_eq_zero
      intro u hu hc
      have := hall u hu
      rw [hc] at this
      exact hne this
    have z1 := z m Stage.incSpinning (by simp)
    have z2 := z m Stage.incPrisoners (by simp)
    have z4 := z m Stage.decSpinning (by simp)
    have z5 := z m Stage.reset (by simp)
    have z6 := z (m + 1) Stage.incSpinning (by simp)
    have z7 := z (m + 1) Stage.incPrisoners (by simp)
    have hb := h.behind
    obtain ⟨t, ht, hl⟩ := countAt_exists s.pc ⟨m, Stage.spin⟩ participants (by omega)
    refine ⟨t, ht, ?_⟩
    have hc : ¬ (s.barrier m).prisoners < (participants : Int) := by
      have h2 := h.total
      have h4 := h.ahead
      have h8 := h.gathering
      have h9 := h.released
      omega
    rw [step_pc_spin_exit s t m hl hc, setPc_pc, Function.update_same, hl]
    simp
  · push_neg at hall
    obtain ⟨t, ht, hne⟩ := hall
    exact ⟨t, ht, step_pc_moves_of_ne_spin s t hne⟩

/-- A fair round makes progress. -/
theorem round_progress (s : World) (m : Nat) (h : BarrierInv s m) (r : List Nat)
    (hr : FairRound r) :
    progress s.pc participants + 1 ≤ progress (run r s).pc participants := by
  obtain ⟨t0, ht0, hmove⟩ := some_moves s m h
  have key : ∀ r : List Nat, (∀ t ∈ r, t < participants) → t0 ∈ r →
      progress s.pc participants + 1 ≤ progress (run r s).pc participants := by
    intro r
    induction r with
    | nil =>
      intro _ hmem
      cases hmem
    | cons t rest ih =>
      intro hv hmem
      have ht := hv t (List.mem_cons_self _ _)
      have hrest : ∀ u ∈ rest, u < participants := fun u hu => hv u (List.mem_cons_of_mem _ hu)
      show _ ≤ progress (run rest (step s t)).pc participants
      have hmono := run_progress rest hrest (step s t)
      by_cases hst : step s t = s
      · rw [hst]
        rcases List.mem_cons.mp hmem with heq | hin
        · exfalso
          subst heq
          rw [hst] at hmove
          exact hmove rfl
        · exact ih hrest hin
      · have hp := step_progress s t ht
        rcases step_moves s t with h1 | ⟨l1, h1, h2⟩
        · exact absurd h1 hst
        · have := progress_update s.pc t l1 participants ht
          rw [h1] at hp
          rw [h1] at hmono
          omega
  exact key r hr.1 (hr.2 t0 ht0)

theorem rounds_valid (rounds : List (List Nat)) (hfair : ∀ r ∈ rounds, FairRound r) :
    ∀ t ∈ rounds.flatten, t < participants := by
  intro t ht
  obtain ⟨r, hr, htr⟩ := List.mem_flatten.mp ht
  exact (hfair r hr).1 t htr

theorem run_append (a b : List Nat) (s : World) : run (a ++ b) s = run b (run a s) := by
  unfold run
  rw [List.foldl_append]

/-- Every fair round adds at least one to the progress. -/
theorem rounds_progress (rounds : List (List Nat)) (hfair : ∀ r ∈ rounds, FairRound r) :
    ∀ (s : World) (m : Nat), BarrierInv s m →
      progress s.pc participants + rounds.length ≤
        progress (run rounds.flatten s).pc participants := by
  induction rounds with
  | nil =>
    intro s m _
    exact le_refl _
  | cons r rest ih =>
    intro s m h
    have hr := hfair r (List.mem_cons_self _ _)
    have hrest : ∀ q ∈ rest, FairRound q := fun q hq => hfair q (List.mem_cons_of_mem _ hq)
    have h1 := round_progress s m h r hr
    obtain ⟨m1, hinv1⟩ := run_inv r hr.1 s m h
    have h2 := ih hrest (run r s) m1 hinv1
    rw [List.flatten_cons, run_append]
    simp only [List.length_cons]
    omega

/-- The progress is bounded by the call number of any participant. -/
theorem progress_bound (s : World) (m : Nat) (h : BarrierInv s m) (u : Nat)
    (hu : u < participants) :
    progress s.pc participants ≤ participants * (5 * (s.pc u).waits + 9) := by
  apply progress_le
  intro t ht
  have h1 := h.near t ht
  have h2 := h.near u hu
  have h3 : (s.pc t).stage.index ≤ 4 := by
    cases (s.pc t).stage <;> simp [Stage.index]
  unfold Loc.position
  omega

theorem barrier_parity (s : World) (k j : Nat) (h : k % 2 = j % 2) :
    s.barrier k = s.barrier j := by
  unfold World.barrier
  rw [h]

/-- The counters stay between `0` and the number of participants. -/
theorem counters_bounded (s : World) (m : Nat) (h : BarrierInv s m) (k : Nat) :
    0 ≤ (s.barrier k).prisoners ∧ (s.barrier k).prisoners ≤ (participants : Int) ∧
    0 ≤ (s.barrier k).spinning ∧ (s.barrier k).spinning ≤ (participants : Int) := by
  have h2 := h.total
  have h5 := h.spinning
  have h6 := h.spinningNext
  have h7 := h.prisonersNext
  have h8 := h.gathering
  have h9 := h.released
  have hpar : k % 2 = m % 2 ∨ k % 2 = (m + 1) % 2 := by omega
  rcases hpar with hp | hp
  · rw [barrier_parity s k m hp]
    refine ⟨?_, ?_, ?_, ?_⟩ <;> omega
  · rw [barrier_parity s k (m + 1) hp]
    refine ⟨?_, ?_, ?_, ?_⟩ <;> omega

/-- Barrier exactness (claim C8): `painterThreadQuantity + 1` participants call
`barrierA.wait()` and `barrierB.wait()` in turn, `runApp` is true.  Let `S` be
the world after any interleaving `sched` of their atomic operations followed by
any number of fair rounds (pieces in which every participant acts at least
once).  Then (1) if a participant has left the loop of its call number `k`,
every participant has done `++prisoners` in its call number `k`; (2) a
participant in the loop stays in it while some participant has not; (3) once
all have, a participant in the loop leaves it at its next operation and has
returned after two more; (4) when all have returned from call `k` and none from
call `k + 1`, both counters of the barrier of call `k` are `0`; (5) when all
are about to start their next call, both barriers are as at the start; (6) the
counters are never outside `0 .. painterThreadQuantity + 1`; (7) there is no
deadlock: some participant's next operation moves it; (8) everybody returns:
after `n` fair rounds every participant `t` has returned from so many calls
`w` that `n ≤ 5 * (5 * w + 9)`, so from call `k` after `25 * k + 70` fair
rounds. -/
theorem barrier_exact (sched : List Nat) (rounds : List (List Nat))
    (hs : ∀ t ∈ sched, t < participants) (hfair : ∀ r ∈ rounds, FairRound r)
    (S : World) (hS : S = run (sched ++ rounds.flatten) World.init) :
    (∀ t u k, t < participants → u < participants →
      (S.pc t).released k → (S.pc u).arrived k) ∧
    (∀ t k, t < participants → S.pc t = ⟨k, Stage.spin⟩ →
      (∃ u, u < participants ∧ ¬ (S.pc u).arrived k) → step S t = S) ∧
    (∀ t k, t < participants → S.pc t = ⟨k, Stage.spin⟩ →
      (∀ u, u < participants → (S.pc u).arrived k) →
      (step S t).pc t = ⟨k, Stage.decSpinning⟩ ∧ ((run [t, t, t] S).pc t).waits = k + 1) ∧
    (∀ k, (∀ t, t < participants → (S.pc t).waits = k + 1) →
      (S.barrier k).prisoners = 0 ∧ (S.barrier k).spinning = 0) ∧
    (∀ k, (∀ t, t < participants → S.pc t = ⟨k + 1, Stage.incSpinning⟩) →
      S.barrierA = ⟨0, 0⟩ ∧ S.barrierB = ⟨0, 0⟩) ∧
    (∀ k, 0 ≤ (S.barrier k).prisoners ∧ (S.barrier k).prisoners ≤ (participants : Int) ∧
      0 ≤ (S.barrier k).spinning ∧ (S.barrier k).spinning ≤ (participants : Int)) ∧
    (∃ t, t < participants ∧ (step S t).pc t ≠ S.pc t) ∧
    (∀ t, t < participants → rounds.length ≤ participants * (5 * (S.pc t).waits + 9)) := by
  obtain ⟨m0, h0⟩ := run_inv sched hs World.init 0 init_inv
  obtain ⟨m, h⟩ := run_inv rounds.flatten (rounds_valid rounds hfair) (run sched World.init)
    m0 h0
  rw [← run_append, ← hS] at h
  refine ⟨?_, ?_, ?_, ?_, ?_, ?_, ?_, ?_⟩
  · intro t u k ht hu hrel
    exact released_arrived _ m h t u k ht hu hrel
  · intro t k ht hl ⟨u, hu, hnot⟩
    by_cases hc : (S.barrier k).prisoners < (participants : Int)
    · exact step_pc_spin_stay _ t k hl hc
    · exact absurd (exit_all_arrived _ m h t k ht hl hc u hu) hnot
  · intro t k ht hl hall
    have hc := all_arrived_exit _ m h t k ht hl hall
    refine ⟨?_, returns_after_exit _ t k hl hc⟩
    rw [step_pc_spin_exit _ t k hl hc]
    simp
  · intro k hall
    exact (counters_zero _ m h k hall).2
  · intro k hall
    obtain ⟨h1, h2, h3, h4⟩ := between_cycles _ m h k hall
    unfold World.barrier at h1 h2 h3 h4
    have hpar : k % 2 = 0 ∨ k % 2 = 1 := by omega
    rcases hpar with hp | hp
    · have hp1 : (k + 1) % 2 ≠ 0 := by omega
      rw [if_pos hp] at h1 h2
      rw [if_neg hp1] at h3 h4
      constructor
      · cases hA : S.barrierA
        rw [hA] at h1 h2
        simp only at h1 h2
        rw [h1, h2]
      · cases hB : S.barrierB
        rw [hB] at h3 h4
        simp only at h3 h4
        rw [h3, h4]
    · have hp0 : k % 2 ≠ 0 := by omega
      have hp1 : (k + 1) % 2 = 0 := by omega
      rw [if_neg hp0] at h1 h2
      rw [if_pos hp1] at h3 h4
      constructor
      · cases hA : S.barrierA
        rw [hA] at h3 h4
        simp only at h3 h4
        rw [h3, h4]
      · cases hB : S.barrierB
        rw [hB] at h1 h2
        simp only at h1 h2
        rw [h1, h2]
  · intro k
    exact counters_bounded S m h k
  · exact some_moves S m h
  · intro t ht
    have h1 := rounds_progress rounds hfair (run sched World.init) m0 h0
    rw [← run_append, ← hS] at h1
    have h2 := progress_bound S m h t ht
    omega

/-- One full cycle of `barrierA`: the five participants arrive one after the
other, the first four leave, the fifth leaves last and resets. -/
theorem barrier_cycle_example :
    (∀ t, t < participants →
      (run [0, 0, 1, 1, 2, 2, 3, 3, 4, 4] World.init).pc t = ⟨0, Stage.spin⟩) ∧
    (run [0, 0, 1, 1, 2, 2, 3, 3, 4, 4] World.init).barrierA = ⟨5, 5⟩ ∧
    (∀ t, t < participants →
      (run [0, 0, 1, 1, 2, 2, 3, 3, 4, 4, 0, 0, 1, 1, 2, 2, 3, 3, 4, 4, 4] World.init).pc t =
        ⟨1, Stage.incSpinning⟩) ∧
    (run [0, 0, 1, 1, 2, 2, 3, 3, 4, 4, 0, 0, 1, 1, 2, 2, 3, 3, 4, 4, 4] World.init).barrierA =
      ⟨0, 0⟩ := by
  refine ⟨?_, by decide, ?_, by decide⟩
  · intro t ht
    have h5 : participants = 5 := rfl
    rw [h5] at ht
    interval_cases t <;> decide
  · intro t ht
    have h5 : participants = 5 := rfl
    rw [h5] at ht
    interval_cases t <;> decide

theorem barrier_exact_witness :
    (∀ t ∈ [0, 0, 1, 1, 2, 2, 3, 3, 4, 4], t < participants) ∧
    (∀ r ∈ [[0, 1, 2, 3, 4], [0, 1, 2, 3, 4, 4]], FairRound r) ∧
    (run ([0, 0, 1, 1, 2, 2, 3, 3, 4, 4] ++
      [[0, 1, 2, 3, 4], [0, 1, 2, 3, 4, 4]].flatten) World.init).barrierA = ⟨0, 0⟩ ∧
    (∀ t, t < participants →
      (run ([0, 0, 1, 1, 2, 2, 3, 3, 4, 4] ++
        [[0, 1, 2, 3, 4], [0, 1, 2, 3, 4, 4]].flatten) World.init).pc t =
          ⟨1, Stage.incSpinning⟩) ∧
    ((∀ t u k, t < participants → u < participants →
      ((run ([0, 0, 1, 1, 2, 2, 3, 3, 4, 4] ++
        [[0, 1, 2, 3, 4], [0, 1, 2, 3, 4, 4]].flatten) World.init).pc t).released k →
      ((run ([0, 0, 1, 1, 2, 2, 3, 3, 4, 4] ++
        [[0, 1, 2, 3, 4], [0, 1, 2, 3, 4, 4]].flatten) World.init).pc u).arrived k) ∧
    (∀ k, (∀ t, t < participants →
        ((run ([0, 0, 1, 1, 2, 2, 3, 3, 4, 4] ++
          [[0, 1, 2, 3, 4], [0, 1, 2, 3, 4, 4]].flatten) World.init).pc t).waits = k + 1) →
      ((run ([0, 0, 1, 1, 2, 2, 3, 3, 4, 4] ++
        [[0, 1, 2, 3, 4], [0, 1, 2, 3, 4, 4]].flatten) World.init).barrier k).prisoners = 0 ∧
      ((run ([0, 0, 1, 1, 2, 2, 3, 3, 4, 4] ++
        [[0, 1, 2, 3, 4], [0, 1, 2, 3, 4, 4]].flatten) World.init).barrier k).spinning = 0) ∧
    (∃ t, t < participants ∧
      (step (run ([0, 0, 1, 1, 2, 2, 3, 3, 4, 4] ++
        [[0, 1, 2, 3, 4], [0, 1, 2, 3, 4, 4]].flatten) World.init) t).pc t ≠
      (run ([0, 0, 1, 1, 2, 2, 3, 3, 4, 4] ++
        [[0, 1, 2, 3, 4], [0, 1, 2, 3, 4, 4]].flatten) World.init).pc t) ∧
    (∀ t, t < participants → [[0, 1, 2, 3, 4], [0, 1, 2, 3, 4, 4]].length ≤
      participants * (5 * ((run ([0, 0, 1, 1, 2, 2, 3, 3, 4, 4] ++
        [[0, 1, 2, 3, 4], [0, 1, 2, 3, 4, 4]].flatten) World.init).pc t).waits + 9))) := by
  have hs : ∀ t ∈ [0, 0, 1, 1, 2, 2, 3, 3, 4, 4], t < participants := by decide
  have hfair : ∀ r ∈ [[0, 1, 2, 3, 4], [0, 1, 2, 3, 4, 4]], FairRound r := by
    intro r hr
    simp only [List.mem_cons, List.mem_singleton, List.not_mem_nil, or_false] at hr
    rcases hr with rfl | rfl
    · exact ⟨by decide, by decide⟩
    · exact ⟨by decide, by decide⟩
  have h := barrier_exact [0, 0, 1, 1, 2, 2, 3, 3, 4, 4] [[0, 1, 2, 3, 4], [0, 1, 2, 3, 4, 4]]
    hs hfair _ rfl
  refine ⟨hs, hfair, by decide, ?_, h.1, h.2.2.2.1, h.2.2.2.2.2.2.1,
    h.2.2.2.2.2.2.2⟩
  intro t ht
  have h5 : participants = 5 := rfl
  rw [h5] at ht
  interval_cases t <;> decide

end Voxelcopter
